import Mathlib

/-!
Formal model of the mcp-gateway document pipeline and hybrid search engine.

Shallow embedding of the relevant functions of `search.py`,
`worker/stages/extract.py`, `worker/stages/chunk.py`, `worker/pipeline.py`
and `api/routes/uploads.py`.  Python float scores are modelled as rationals,
Python dictionaries keyed by chunk id as association lists over natural
number ids, and database rows as explicit structures.
-/

namespace McpGateway

/-! ## Generic list helpers used by the models -/

/-- Maximum of a list of rationals, as Python max over the dict values.
The empty case is never reached by the modelled code (it is guarded by an
emptiness check) and defaults to 0. -/
def listMax : List ℚ → ℚ
  | [] => 0
  | x :: xs => xs.foldl max x

/-- Minimum of a list of rationals, as Python min over the dict values. -/
def listMin : List ℚ → ℚ
  | [] => 0
  | x :: xs => xs.foldl min x

/-- Model of building a Python set from a list and listing its elements:
duplicates are collapsed, keeping the last occurrence. -/
def distinctList {α : Type} [DecidableEq α] : List α → List α
  | [] => []
  | x :: xs => if x ∈ xs then distinctList xs else x :: distinctList xs

/-- Association list lookup with Python dict.get default 0. -/
def lookupD (m : List (Nat × ℚ)) (k : Nat) : ℚ :=
  match m.find? (fun p => p.1 == k) with
  | some p => p.2
  | none => 0

/-- Stable descending insertion: the new entry goes in front of the first
entry whose score is not larger.  Used to model the stable Python sort with
reverse=True on the combined score map. -/
def insertDesc (p : Nat × ℚ) : List (Nat × ℚ) → List (Nat × ℚ)
  | [] => [p]
  | q :: qs => if q.2 ≤ p.2 then p :: q :: qs else q :: insertDesc p qs

/-- Stable sort by score, descending, as Python sorted with reverse=True. -/
def sortDesc (l : List (Nat × ℚ)) : List (Nat × ℚ) := l.foldr insertDesc []

/-! ## Model of search.py -/

/-- Row of the chunks table as used by hybrid_search. -/
structure ChunkRow where
  chunk_id : Nat
  doc_id : Nat
  version_id : Nat
  chunk_num : Nat
  chunk_text : String
  language : String
  ocr_used : Bool
  ocr_confidence : Option ℚ
deriving DecidableEq

/-- Row of the documents table as used by hybrid_search. -/
structure DocRow where
  doc_id : Nat
  latest_version_id : Option Nat
  title : String
deriving DecidableEq

/-- Hit returned by hybrid_search (fields relevant to the claims). -/
structure SearchHit where
  chunk_id : Nat
  doc_id : Nat
  version_id : Nat
  chunk_num : Nat
  score : ℚ
  doc_title : Option String
deriving DecidableEq

/-- Conflict source attached to a search result. -/
structure ConflictSource where
  doc_id : Nat
  version_id : Nat
  title : String
deriving DecidableEq

/-- Result of hybrid_search. -/
structure SearchResult where
  hits : List SearchHit
  possible_conflict : Bool
  conflict_sources : List ConflictSource
deriving DecidableEq

/-- Model of the helper that normalizes scores to the 0-1 range within a
candidate set: min-max normalization, every score becoming 1 when the
spread is zero, the empty map left unchanged. -/
def normalize_scores (scores : List (Nat × ℚ)) : List (Nat × ℚ) :=
  if scores = [] then scores
  else
    let maxScore := listMax (scores.map Prod.snd)
    let minScore := listMin (scores.map Prod.snd)
    let spread := maxScore - minScore
    if spread = 0 then scores.map (fun p => (p.1, 1))
    else scores.map (fun p => (p.1, (p.2 - minScore) / spread))

/-- The union of the lexical and semantic candidate ids, as the Python set
union of the two dict key sets. -/
def allChunkIds (fts vec : List (Nat × ℚ)) : List Nat :=
  distinctList (fts.map Prod.fst ++ vec.map Prod.fst)

/-- Pre-boost combined score of a candidate: normalized lexical score plus
normalized semantic score, a missing side contributing 0. -/
def preScore (fts vec : List (Nat × ℚ)) (cid : Nat) : ℚ :=
  lookupD (normalize_scores fts) cid + lookupD (normalize_scores vec) cid

/-- The combined score map of hybrid_search step 3, over the id union. -/
def mergeScores (fts vec : List (Nat × ℚ)) : List (Nat × ℚ) :=
  (allChunkIds fts vec).map (fun cid => (cid, preScore fts vec cid))

/-- Chunk lookup by id, as the chunks_by_id dict. -/
def findChunk (chunks : List ChunkRow) (cid : Nat) : Option ChunkRow :=
  chunks.find? (fun c => c.chunk_id == cid)

/-- Document lookup by id, as the docs_by_id dict. -/
def findDoc (docs : List DocRow) (d : Nat) : Option DocRow :=
  docs.find? (fun x => x.doc_id == d)

/-- Boost step of hybrid_search (step 4): plus 0.1 when the chunk version
is the latest version of its document, plus 0.05 times confidence over 100
when the OCR confidence is defined; a chunk id without a loaded row keeps
its score. -/
def applyBoost (docs : List DocRow) (chunks : List ChunkRow)
    (cid : Nat) (score : ℚ) : ℚ :=
  match findChunk chunks cid with
  | none => score
  | some chunk =>
    let s1 :=
      match findDoc docs chunk.doc_id with
      | some doc =>
        if doc.latest_version_id = some chunk.version_id then score + 1/10
        else score
      | none => score
    match chunk.ocr_confidence with
    | some conf => s1 + (1/20) * (conf / 100)
    | none => s1

/-- Rounding of the final score to 4 decimals.  Python round uses bankers
rounding on binary floats; the rational model rounds half away from zero,
which agrees except on exact representable ties, which no claim depends
on. -/
def roundTo4 (x : ℚ) : ℚ := (round (x * 10000) : ℤ) / 10000

/-- Hit construction of hybrid_search step 5: ids whose chunk row is
missing are skipped, the score is rounded, the document title attached
when the document row exists. -/
def buildHits (docs : List DocRow) (chunks : List ChunkRow)
    (sortedScores : List (Nat × ℚ)) : List SearchHit :=
  sortedScores.filterMap fun p =>
    match findChunk chunks p.1 with
    | none => none
    | some chunk => some
      { chunk_id := p.1
        doc_id := chunk.doc_id
        version_id := chunk.version_id
        chunk_num := chunk.chunk_num
        score := roundTo4 p.2
        doc_title := (findDoc docs chunk.doc_id).map (fun d => d.title) }

/-- The close hits of conflict detection: among the top three hits, those
whose score is at least 0.9 times the score of the first hit. -/
def closeHits (hits : List SearchHit) : List SearchHit :=
  match hits with
  | [] => []
  | top :: _ => (hits.take 3).filter (fun h => decide (top.score * (9/10) ≤ h.score))

/-- The distinct (doc_id, version_id) pairs spanned by the close hits. -/
def closePairs (hits : List SearchHit) : List (Nat × Nat) :=
  distinctList ((closeHits hits).map (fun h => (h.doc_id, h.version_id)))

/-- Conflict detection of hybrid_search step 6: engaged for two or more
hits, flagging a conflict when the close hits span more than one distinct
(doc_id, version_id) source, attaching each source with its title. -/
def conflictDetect (docs : List DocRow) (hits : List SearchHit) :
    Bool × List ConflictSource :=
  match hits with
  | _ :: _ :: _ =>
    let uniq := closePairs hits
    if 1 < uniq.length then
      (true, uniq.map fun pr =>
        { doc_id := pr.1
          version_id := pr.2
          title := match findDoc docs pr.1 with
                   | some d => d.title
                   | none => "Unknown" })
    else (false, [])
  | _ => (false, [])

/-- Pure model of hybrid_search steps 3 to 6 given the gathered candidate
score sets.  The semantic side is an Option: none models the embedder call
raising, in which case the except branch leaves the semantic set empty. -/
def hybrid_search_model (docs : List DocRow) (chunks : List ChunkRow)
    (fts_scores : List (Nat × ℚ)) (embedded : Option (List (Nat × ℚ)))
    (k : Nat) : SearchResult :=
  let vector_scores : List (Nat × ℚ) :=
    match embedded with
    | some v => v
    | none => []
  if (allChunkIds fts_scores vector_scores).isEmpty then
    { hits := [], possible_conflict := false, conflict_sources := [] }
  else
    let boosted := (mergeScores fts_scores vector_scores).map
      (fun p => (p.1, applyBoost docs chunks p.1 p.2))
    let hits := buildHits docs chunks ((sortDesc boosted).take k)
    let cd := conflictDetect docs hits
    { hits := hits, possible_conflict := cd.1, conflict_sources := cd.2 }

/-! ## Model of worker/stages/extract.py -/

/-- Number of characters marked alphabetic in a text.  Python str.isalpha
is a Unicode property, abstracted here as a parameter. -/
def countAlpha (isAlphaC : Char → Bool) (l : List Char) : Nat := l.countP isAlphaC

/-- Fraction of alphabetic characters in a text, 0 for the empty text. -/
def alphaFraction (isAlphaC : Char → Bool) (text : List Char) : ℚ :=
  if text = [] then 0
  else (countAlpha isAlphaC text : ℚ) / (text.length : ℚ)

/-- The text over which run_extract computes the alpha fraction for a PDF:
the page texts joined with a single space character. -/
def joinedPageText (pages : List (Nat × List Char)) : List Char :=
  List.intercalate [' '] (pages.map Prod.snd)

/-- The page texts concatenated with no separator; its length is the
total_chars accumulator of run_extract. -/
def concatPageText (pages : List (Nat × List Char)) : List Char :=
  (pages.map Prod.snd).flatten

/-- Total number of extracted characters across pages. -/
def totalChars (pages : List (Nat × List Char)) : Nat :=
  (pages.map (fun p => p.2.length)).sum

/-- Flag computation of the PDF branch of run_extract, returning the pair
(has_text_layer, needs_ocr). -/
def pdfFlags (isAlphaC : Char → Bool) (pages : List (Nat × List Char)) :
    Bool × Bool :=
  (decide (0 < totalChars pages),
   decide (totalChars pages < 500)
     || decide (alphaFraction isAlphaC (joinedPageText pages) < 1/5))

/-- The alpha fraction as the specification sentence reads: alphabetic
characters over the total number of extracted characters across pages,
with no join separators.  Stated from the spec wording, for comparison
with the code model pdfFlags. -/
def specNeedsOcr (isAlphaC : Char → Bool) (pages : List (Nat × List Char)) :
    Bool :=
  decide (totalChars pages < 500)
    || decide (alphaFraction isAlphaC (concatPageText pages) < 1/5)

/-- Python rfind of a double newline within the half open window from
start to stop: the greatest p with a double newline fully inside the
window; none models the -1 result. -/
def rfindNlNl (text : List Char) (start stop : Nat) : Option Nat :=
  ((List.range stop).filter (fun p =>
    decide (start ≤ p) && decide (p + 2 ≤ stop)
      && (text.get? p == some '\n') && (text.get? (p + 1) == some '\n'))).max?

/-- Python rfind of a single character within the half open window from
start to stop; none models the -1 result. -/
def rfindChar (text : List Char) (ch : Char) (start stop : Nat) : Option Nat :=
  ((List.range stop).filter (fun p =>
    decide (start ≤ p) && decide (p + 1 ≤ stop) && (text.get? p == some ch))).max?

/-- Fallback of the page window choice: break after the last single
newline past the midpoint, else the hard cut at stop. -/
def pageNlFallback (text : List Char) (target start stop : Nat) : Nat :=
  match rfindChar text '\n' start stop with
  | some nl => if start + target / 2 < nl then nl + 1 else stop
  | none => stop

/-- End of the synthetic page starting at start in paginate_text: hard cap
at start plus target, preferring a paragraph break past the midpoint, else
a single newline past the midpoint. -/
def pageEnd (text : List Char) (target start : Nat) : Nat :=
  let stop := min (start + target) text.length
  if stop < text.length then
    match rfindNlNl text start stop with
    | some p =>
      if start + target / 2 < p then p + 2
      else pageNlFallback text target start stop
    | none => pageNlFallback text target start stop
  else stop

/-- Fuel indexed model of the paginate_text while loop, producing the
synthetic (page_num, page_text) pairs; none when the fuel runs out before
the loop exits, which models nontermination of the Python loop. -/
def paginateAux (text : List Char) (target : Nat) :
    Nat → Nat → Nat → Option (List (Nat × List Char))
  | 0, start, _ => if start < text.length then none else some []
  | fuel + 1, start, pageNum =>
    if start < text.length then
      let e := pageEnd text target start
      match paginateAux text target fuel e (pageNum + 1) with
      | none => none
      | some rest => some ((pageNum, (text.drop start).take (e - start)) :: rest)
    else some []

/-- Model of paginate_text: empty text or nonpositive target give a single
page, text within the target gives a single page, otherwise the loop runs
with enough fuel for its worst case. -/
def paginate_text (text : List Char) (target : Nat) :
    Option (List (Nat × List Char)) :=
  if text = [] ∨ target = 0 then some [(1, text)]
  else if text.length ≤ target then some [(1, text)]
  else paginateAux text target (text.length + 1) 0 1

/-! ## Model of worker/stages/chunk.py -/

/-- The character class of the Python regex escape for whitespace over
str, which also drives str.strip. -/
def isPySpace (c : Char) : Bool :=
  c == ' ' || c == '\t' || c == '\n' || c == '\x0b' || c == '\x0c' || c == '\r'
    || c.val == 28 || c.val == 29 || c.val == 30 || c.val == 31
    || c.val == 133 || c.val == 160 || c.val == 0x1680
    || (decide (0x2000 ≤ c.val) && decide (c.val ≤ 0x200a))
    || c.val == 0x2028 || c.val == 0x2029 || c.val == 0x202f
    || c.val == 0x205f || c.val == 0x3000

/-- Python str.rstrip with no argument: drop trailing whitespace. -/
def rstripPy (l : List Char) : List Char :=
  (l.reverse.dropWhile isPySpace).reverse

/-- Python str.strip with no argument: drop whitespace on both ends. -/
def stripPy (l : List Char) : List Char :=
  (rstripPy l).dropWhile isPySpace

/-- End of the maximal whitespace run starting at index i of the region:
the index plus the length of the run of whitespace characters from i. -/
def wsRunEnd (region : List Char) (i : Nat) : Nat :=
  i + ((region.drop i).takeWhile isPySpace).length

/-- The last match of the sentence boundary regex, a whitespace run with a
lookbehind on a sentence terminator, in the region: the pair of its match
start and match end, none when the region has no match. -/
def lastSentBoundary (region : List Char) : Option (Nat × Nat) :=
  match ((List.range region.length).filter (fun i =>
      decide (1 ≤ i)
        && (region.get? (i - 1)).any (fun c => c == '.' || c == '!' || c == '?')
        && (region.get? i).any isPySpace)).max? with
  | some i => some (i, wsRunEnd region i)
  | none => none

/-- Word break fallback of split_text: break after the last space past the
midpoint, else the hard cut at stop. -/
def wordBreak (text : List Char) (target start stop : Nat) : Nat :=
  match rfindChar text ' ' start stop with
  | some sp => if start + target / 2 < sp then sp + 1 else stop
  | none => stop

/-- Sentence break step of split_text: break at the end of the last
sentence boundary of the window when its start is past the midpoint, else
fall back to a word break. -/
def sentenceOrWord (text : List Char) (target start stop : Nat) : Nat :=
  let region := (text.drop start).take (stop - start)
  match lastSentBoundary region with
  | some m => if target / 2 < m.1 then start + m.2 else wordBreak text target start stop
  | none => wordBreak text target start stop

/-- End of the chunk starting at start in split_text: hard cap at start
plus target, then paragraph break past the midpoint, else sentence break,
else word break. -/
def chunkEnd (text : List Char) (target start : Nat) : Nat :=
  let stop := min (start + target) text.length
  if stop < text.length then
    match rfindNlNl text start stop with
    | some p =>
      if start + target / 2 < p then p + 2
      else sentenceOrWord text target start stop
    | none => sentenceOrWord text target start stop
  else stop

/-- Start of the next chunk: step back by the overlap, unless that fails
to advance past the current start. -/
def nextStart (start stop overlap : Nat) : Nat :=
  if stop - overlap ≤ start then stop else stop - overlap

/-- Fuel indexed model of the split_text while loop, producing the list of
(char_start, char_end) ranges; none when the fuel runs out before the loop
exits, which models nontermination of the Python loop. -/
def splitTextAux (text : List Char) (target overlap : Nat) :
    Nat → Nat → Option (List (Nat × Nat))
  | 0, start => if start < text.length then none else some []
  | fuel + 1, start =>
    if start < text.length then
      let e := chunkEnd text target start
      match splitTextAux text target overlap fuel (nextStart start e overlap) with
      | none => none
      | some rest => some ((start, e) :: rest)
    else some []

/-- Model of split_text at the default target 1000 and overlap 150, run
with enough fuel for its worst case of one character per chunk. -/
def split_text (text : List Char) : List (Nat × Nat) :=
  (splitTextAux text 1000 150 (text.length + 1) 0).getD []

/-- A chunk row of run_chunk, restricted to the fields of the claims. -/
structure ChunkTuple where
  char_start : Nat
  char_end : Nat
  chunk_num : Nat
  language : String
deriving DecidableEq

/-- The concatenated page text of run_chunk before the final rstrip: each
page text followed by a newline separator. -/
def pageConcatNl (pages : List (Nat × List Char)) : List Char :=
  (pages.map (fun p => p.2 ++ ['\n'])).flatten

/-- The full text that run_chunk splits: concatenated page text with the
trailing whitespace stripped. -/
def fullTextOf (pages : List (Nat × List Char)) : List Char :=
  rstripPy (pageConcatNl pages)

/-- The chunk rows run_chunk writes for a version with the given pages:
ranges from split_text over the full text, chunks that strip to nothing
skipped, chunk_num taken from the enumerate position, language from the
detector, which is abstracted as a parameter. -/
def chunkTuples (detect : List Char → String)
    (pages : List (Nat × List Char)) : List ChunkTuple :=
  (split_text (fullTextOf pages)).enum.filterMap fun ir =>
    let slice := ((fullTextOf pages).drop ir.2.1).take (ir.2.2 - ir.2.1)
    if stripPy slice = [] then none
    else some ⟨ir.2.1, ir.2.2, ir.1, detect slice⟩

/-- State transition of run_chunk on the chunk rows of a version: with no
pages the stage returns early and leaves the rows alone; otherwise the
pre-existing rows are deleted and the freshly computed rows written. -/
def run_chunk_state (detect : List Char → String)
    (prev : List ChunkTuple) (pages : List (Nat × List Char)) : List ChunkTuple :=
  if pages = [] then prev else chunkTuples detect pages

/-! ## Model of worker/pipeline.py -/

/-- The five pipeline stages. -/
inductive JobStage
  | extract
  | ocr
  | chunk
  | embed
  | finalize
deriving DecidableEq

/-- Status of an ingestion job row. -/
inductive JobStatus
  | queued
  | running
  | done
  | error
deriving DecidableEq

/-- Status of a document version. -/
inductive VersionStatus
  | queued
  | extracting
  | extracted
  | ocr_running
  | ocr_done
  | chunking
  | chunked
  | embedding
  | embedded
  | ready
  | error
deriving DecidableEq

/-- The ordered pipeline stage list STAGE_ORDER. -/
def STAGE_ORDER : List JobStage :=
  [JobStage.extract, JobStage.ocr, JobStage.chunk, JobStage.embed, JobStage.finalize]

/-- The version status while a stage runs, third column of STAGE_CONFIG. -/
def runningStatus : JobStage → VersionStatus
  | JobStage.extract => VersionStatus.extracting
  | JobStage.ocr => VersionStatus.ocr_running
  | JobStage.chunk => VersionStatus.chunking
  | JobStage.embed => VersionStatus.embedding
  | JobStage.finalize => VersionStatus.ready

/-- An ingestion job row for one (version, stage) pair: its status and
whether its metrics carry the skipped flag. -/
structure JobInfo where
  status : JobStatus
  skipped_metric : Bool
deriving DecidableEq

/-- Database state of one version as the orchestrator sees it: at most one
job row per stage, plus the version status. -/
structure PipeDB where
  jobs : JobStage → Option JobInfo
  vstatus : VersionStatus

/-- Pointwise update of the job table at one stage. -/
def updateJob (jobs : JobStage → Option JobInfo) (s : JobStage) (j : JobInfo) :
    JobStage → Option JobInfo :=
  fun t => if t = s then some j else jobs t

/-- Database part of enqueue_stage: upsert the job row of the stage back
to queued (metrics of an existing row are kept) and set the version status
to the running sentinel of the stage. -/
def enqueue_stage (db : PipeDB) (stage : JobStage) : PipeDB :=
  let newInfo : JobInfo :=
    match db.jobs stage with
    | some j => { j with status := JobStatus.queued }
    | none => { status := JobStatus.queued, skipped_metric := false }
  { jobs := updateJob db.jobs stage newInfo, vstatus := runningStatus stage }

/-- The set of stages whose job row is done, computed once at the start of
advance_pipeline. -/
def completedSet (db : PipeDB) : JobStage → Bool :=
  fun s =>
    match db.jobs s with
    | some j => j.status == JobStatus.done
    | none => false

/-- The walk of advance_pipeline over the remaining stage list: skip a
completed stage; at ocr with needs_ocr false, upsert a done job row with
the skipped metric, move the version to ocr_done and continue; otherwise
enqueue the stage and stop, reporting it. -/
def advanceWalk (needsOcr : Bool) (completed : JobStage → Bool) :
    List JobStage → PipeDB → PipeDB × Option JobStage
  | [], db => (db, none)
  | stage :: rest, db =>
    if completed stage then advanceWalk needsOcr completed rest db
    else if stage = JobStage.ocr ∧ needsOcr = false then
      let info : JobInfo :=
        match db.jobs JobStage.ocr with
        | some j => { j with status := JobStatus.done, skipped_metric := true }
        | none => { status := JobStatus.done, skipped_metric := true }
      advanceWalk needsOcr completed rest
        { jobs := updateJob db.jobs JobStage.ocr info
          vstatus := VersionStatus.ocr_done }
    else (enqueue_stage db stage, some stage)

/-- Model of advance_pipeline: walk the ordered stage list with the set of
done stages computed up front, returning the final database state and the
stage enqueued, if any. -/
def advance_pipeline (needsOcr : Bool) (db : PipeDB) : PipeDB × Option JobStage :=
  advanceWalk needsOcr (completedSet db) STAGE_ORDER db

/-! ## Model of api/routes/uploads.py -/

/-- A document version row as the upload route sees it. -/
structure VersionRec where
  version_id : Nat
  doc_id : Nat
  original_sha256 : Nat
deriving DecidableEq

/-- An upload staging row. -/
structure UploadRow where
  original_filename : String
  size_bytes : Nat
  sha256 : Nat
  object_key : String
  doc_id : Option Nat
  version_id : Option Nat
  status : String
deriving DecidableEq

/-- Persistent state touched by the upload route: version rows, upload
rows, and the object keys present in the object store. -/
structure StoreState where
  versions : List VersionRec
  uploads : List UploadRow
  blobs : List String
deriving DecidableEq

/-- Per file result of the upload route. -/
structure UploadFileResult where
  filename : String
  size_bytes : Nat
  status : String
  duplicate_doc_id : Option Nat
  duplicate_version_id : Option Nat
deriving DecidableEq

/-- Model of the per file body of upload_files: reject a file over the
size limit (the 413 error, modelled as none); on a version with the same
content hash record a duplicate upload row pointing at it and write no
blob; otherwise store the blob under the staging key and record a pending
row.  The staging key generated from a fresh uuid is a parameter. -/
def process_upload (maxBytes : Nat) (st : StoreState) (sha size : Nat)
    (filename tempKey : String) : Option (StoreState × UploadFileResult) :=
  if maxBytes < size then none
  else
    match st.versions.find? (fun v => v.original_sha256 == sha) with
    | some dup =>
      some ({ st with uploads := st.uploads ++
                [{ original_filename := filename
                   size_bytes := size
                   sha256 := sha
                   object_key := ""
                   doc_id := some dup.doc_id
                   version_id := some dup.version_id
                   status := "duplicate" }] },
        { filename := filename
          size_bytes := size
          status := "duplicate"
          duplicate_doc_id := some dup.doc_id
          duplicate_version_id := some dup.version_id })
    | none =>
      some ({ st with
              uploads := st.uploads ++
                [{ original_filename := filename
                   size_bytes := size
                   sha256 := sha
                   object_key := tempKey
                   doc_id := none
                   version_id := none
                   status := "pending_confirmation" }]
              blobs := st.blobs ++ [tempKey] },
        { filename := filename
          size_bytes := size
          status := "pending_confirmation"
          duplicate_doc_id := none
          duplicate_version_id := none })

/-! ## Helper lemmas on the list utilities -/

theorem le_foldl_max (xs : List ℚ) (a : ℚ) : a ≤ xs.foldl max a := by
  induction xs generalizing a with
  | nil => exact le_refl a
  | cons x xs ih => exact le_trans (le_max_left a x) (ih (max a x))

theorem mem_le_foldl_max (xs : List ℚ) (a x : ℚ) (hx : x ∈ xs) :
    x ≤ xs.foldl max a := by
  induction xs generalizing a with
  | nil => cases hx
  | cons y ys ih =>
    rcases List.mem_cons.mp hx with h | h
    · subst h
      exact le_trans (le_max_right a x) (le_foldl_max ys (max a x))
    · exact ih (max a y) h

theorem foldl_max_mem (xs : List ℚ) (a : ℚ) : xs.foldl max a ∈ a :: xs := by
  induction xs generalizing a with
  | nil => exact List.mem_singleton.mpr rfl
  | cons y ys ih =>
    rw [List.foldl_cons]
    have h := ih (max a y)
    rcases List.mem_cons.mp h with h1 | h1
    · rcases max_choice a y with h2 | h2 <;> rw [h1, h2]
      · exact List.mem_cons_self _ _
      · exact List.mem_cons.mpr (Or.inr (List.mem_cons_self _ _))
    · exact List.mem_cons.mpr (Or.inr (List.mem_cons.mpr (Or.inr h1)))

theorem foldl_min_le (xs : List ℚ) (a : ℚ) : xs.foldl min a ≤ a := by
  induction xs generalizing a with
  | nil => exact le_refl a
  | cons x xs ih => exact le_trans (ih (min a x)) (min_le_left a x)

theorem foldl_min_le_mem (xs : List ℚ) (a x : ℚ) (hx : x ∈ xs) :
    xs.foldl min a ≤ x := by
  induction xs generalizing a with
  | nil => cases hx
  | cons y ys ih =>
    rcases List.mem_cons.mp hx with h | h
    · subst h
      exact le_trans (foldl_min_le ys (min a x)) (min_le_right a x)
    · exact ih (min a y) h

theorem foldl_min_mem (xs : List ℚ) (a : ℚ) : xs.foldl min a ∈ a :: xs := by
  induction xs generalizing a with
  | nil => exact List.mem_singleton.mpr rfl
  | cons y ys ih =>
    rw [List.foldl_cons]
    have h := ih (min a y)
    rcases List.mem_cons.mp h with h1 | h1
    · rcases min_choice a y with h2 | h2 <;> rw [h1, h2]
      · exact List.mem_cons_self _ _
      · exact List.mem_cons.mpr (Or.inr (List.mem_cons_self _ _))
    · exact List.mem_cons.mpr (Or.inr (List.mem_cons.mpr (Or.inr h1)))

theorem le_listMax {l : List ℚ} {x : ℚ} (hx : x ∈ l) : x ≤ listMax l := by
  cases l with
  | nil => cases hx
  | cons y ys =>
    rcases List.mem_cons.mp hx with h | h
    · subst h; exact le_foldl_max ys x
    · exact mem_le_foldl_max ys y x h

theorem listMax_mem {l : List ℚ} (h : l ≠ []) : listMax l ∈ l := by
  cases l with
  | nil => exact absurd rfl h
  | cons y ys => exact foldl_max_mem ys y

theorem listMin_le {l : List ℚ} {x : ℚ} (hx : x ∈ l) : listMin l ≤ x := by
  cases l with
  | nil => cases hx
  | cons y ys =>
    rcases List.mem_cons.mp hx with h | h
    · subst h; exact foldl_min_le ys x
    · exact foldl_min_le_mem ys y x h

theorem listMin_mem {l : List ℚ} (h : l ≠ []) : listMin l ∈ l := by
  cases l with
  | nil => exact absurd rfl h
  | cons y ys => exact foldl_min_mem ys y

theorem listMin_le_listMax {l : List ℚ} (h : l ≠ []) : listMin l ≤ listMax l :=
  le_listMax (listMin_mem h)

theorem foldl_max_map {f : ℚ → ℚ} (hf : Monotone f) (xs : List ℚ) (a : ℚ) :
    (xs.map f).foldl max (f a) = f (xs.foldl max a) := by
  induction xs generalizing a with
  | nil => rfl
  | cons x xs ih =>
    show (xs.map f).foldl max (max (f a) (f x)) = f (xs.foldl max (max a x))
    rw [← hf.map_max, ih (max a x)]

theorem foldl_min_map {f : ℚ → ℚ} (hf : Monotone f) (xs : List ℚ) (a : ℚ) :
    (xs.map f).foldl min (f a) = f (xs.foldl min a) := by
  induction xs generalizing a with
  | nil => rfl
  | cons x xs ih =>
    show (xs.map f).foldl min (min (f a) (f x)) = f (xs.foldl min (min a x))
    rw [← hf.map_min, ih (min a x)]

theorem listMax_map_mono {f : ℚ → ℚ} (hf : Monotone f) {l : List ℚ}
    (h : l ≠ []) : listMax (l.map f) = f (listMax l) := by
  cases l with
  | nil => exact absurd rfl h
  | cons y ys => exact foldl_max_map hf ys y

theorem listMin_map_mono {f : ℚ → ℚ} (hf : Monotone f) {l : List ℚ}
    (h : l ≠ []) : listMin (l.map f) = f (listMin l) := by
  cases l with
  | nil => exact absurd rfl h
  | cons y ys => exact foldl_min_map hf ys y

theorem mem_distinctList {α : Type} [DecidableEq α] {l : List α} {x : α} :
    x ∈ distinctList l ↔ x ∈ l := by
  induction l with
  | nil => simp [distinctList]
  | cons y ys ih =>
    by_cases h : y ∈ ys
    · simp only [distinctList, if_pos h, ih, List.mem_cons]
      constructor
      · exact Or.inr
      · rintro (rfl | h2)
        · exact h
        · exact h2
    · simp [distinctList, if_neg h, ih]

theorem nodup_distinctList {α : Type} [DecidableEq α] (l : List α) :
    (distinctList l).Nodup := by
  induction l with
  | nil => exact List.nodup_nil
  | cons y ys ih =>
    by_cases h : y ∈ ys
    · simpa [distinctList, if_pos h] using ih
    · rw [distinctList, if_neg h]
      exact List.nodup_cons.mpr ⟨fun hm => h (mem_distinctList.mp hm), ih⟩

theorem find?_map_keyed {ids : List Nat} {v : Nat → ℚ} {k : Nat} (hk : k ∈ ids) :
    ((ids.map (fun c => (c, v c))).find? (fun p => p.1 == k)) = some (k, v k) := by
  induction ids with
  | nil => cases hk
  | cons c cs ih =>
    rw [List.map_cons]
    by_cases h : c = k
    · subst h
      exact List.find?_cons_of_pos _ (by simp)
    · rw [List.find?_cons_of_neg _ (by simp [h])]
      exact ih (List.mem_cons.mp hk |>.resolve_left (fun he => h he.symm))

theorem lookupD_map_keyed {ids : List Nat} {v : Nat → ℚ} {k : Nat} (hk : k ∈ ids) :
    lookupD (ids.map (fun c => (c, v c))) k = v k := by
  rw [lookupD, find?_map_keyed hk]

theorem lookupD_eq_zero {m : List (Nat × ℚ)} {k : Nat}
    (hk : k ∉ m.map Prod.fst) : lookupD m k = 0 := by
  rw [lookupD, List.find?_eq_none.mpr]
  intro p hp hbeq
  exact hk (List.mem_map.mpr ⟨p, hp, by simpa using hbeq⟩)

theorem normalize_keys (m : List (Nat × ℚ)) :
    (normalize_scores m).map Prod.fst = m.map Prod.fst := by
  by_cases h : m = []
  · simp [normalize_scores, h]
  · simp only [normalize_scores, if_neg h]
    by_cases h2 : listMax (m.map Prod.snd) - listMin (m.map Prod.snd) = 0
    · simp only [if_pos h2, List.map_map]
      rfl
    · simp only [if_neg h2, List.map_map]
      rfl

theorem insertDesc_perm (p : Nat × ℚ) (l : List (Nat × ℚ)) :
    (insertDesc p l).Perm (p :: l) := by
  induction l with
  | nil => exact List.Perm.refl _
  | cons q qs ih =>
    by_cases h : q.2 ≤ p.2
    · rw [insertDesc, if_pos h]
    · rw [insertDesc, if_neg h]
      exact List.Perm.trans (List.Perm.cons q ih) (List.Perm.swap p q qs)

theorem sortDesc_perm (l : List (Nat × ℚ)) : (sortDesc l).Perm l := by
  induction l with
  | nil => exact List.Perm.refl _
  | cons x xs ih =>
    exact List.Perm.trans (insertDesc_perm x (sortDesc xs)) (List.Perm.cons x ih)

theorem mem_insertDesc {p x : Nat × ℚ} {l : List (Nat × ℚ)} :
    x ∈ insertDesc p l ↔ x = p ∨ x ∈ l := by
  rw [(insertDesc_perm p l).mem_iff, List.mem_cons]

theorem sorted_insertDesc {l : List (Nat × ℚ)}
    (h : l.Pairwise (fun a b => b.2 ≤ a.2)) (p : Nat × ℚ) :
    (insertDesc p l).Pairwise (fun a b => b.2 ≤ a.2) := by
  induction l with
  | nil => exact List.pairwise_singleton _ _
  | cons q qs ih =>
    rcases List.pairwise_cons.mp h with ⟨hhead, htail⟩
    by_cases hq : q.2 ≤ p.2
    · rw [insertDesc, if_pos hq]
      refine List.pairwise_cons.mpr ⟨?_, h⟩
      intro x hx
      rcases List.mem_cons.mp hx with h1 | h1
      · exact h1 ▸ hq
      · exact le_trans (hhead x h1) hq
    · rw [insertDesc, if_neg hq]
      refine List.pairwise_cons.mpr ⟨?_, ih htail⟩
      intro x hx
      rcases mem_insertDesc.mp hx with h1 | h1
      · exact h1 ▸ (le_of_not_le hq)
      · exact hhead x h1

theorem sortDesc_sorted (l : List (Nat × ℚ)) :
    (sortDesc l).Pairwise (fun a b => b.2 ≤ a.2) := by
  induction l with
  | nil => exact List.Pairwise.nil
  | cons x xs ih => exact sorted_insertDesc ih x

theorem pairwise_filterMap_of {α β : Type} {U : α → α → Prop} {T : β → β → Prop}
    (g : α → Option β)
    (hg : ∀ a b x y, U a b → g a = some x → g b = some y → T x y) :
    ∀ {l : List α}, l.Pairwise U → (l.filterMap g).Pairwise T := by
  intro l h
  induction h with
  | nil => simp
  | @cons a l hhead htail ih =>
    rw [List.filterMap_cons]
    cases hga : g a with
    | none => exact ih
    | some x =>
      refine List.pairwise_cons.mpr ⟨?_, ih⟩
      intro y hy
      rcases List.mem_filterMap.mp hy with ⟨b, hb, hgb⟩
      exact hg a b x y (hhead b hb) hga hgb

theorem normalize_scores_spread_ne (scores : List (Nat × ℚ)) (hne : scores ≠ [])
    (h : listMax (scores.map Prod.snd) - listMin (scores.map Prod.snd) ≠ 0) :
    normalize_scores scores = scores.map (fun p =>
      (p.1, (p.2 - listMin (scores.map Prod.snd)) /
        (listMax (scores.map Prod.snd) - listMin (scores.map Prod.snd)))) := by
  simp only [normalize_scores, if_neg hne, if_neg h]

theorem normalize_scores_spread_eq (scores : List (Nat × ℚ)) (hne : scores ≠ [])
    (h : listMax (scores.map Prod.snd) - listMin (scores.map Prod.snd) = 0) :
    normalize_scores scores = scores.map (fun p => (p.1, 1)) := by
  simp only [normalize_scores, if_pos h, if_neg hne]

/-! ## Claim C1 -/

/-- C1: in hybrid_search the lexical and semantic score sets are each
independently min-max normalized into the 0-1 range over their own
candidates: a nonempty set with distinct min and max normalizes with
maximum exactly 1 and minimum exactly 0; with zero spread every score
becomes 1; and the combined score of every candidate is its normalized
lexical score plus its normalized semantic score, a side on which the
candidate is absent contributing 0. -/
theorem search_score_normalization
    (scores fts vec : List (Nat × ℚ)) (cid : Nat)
    (hne : scores ≠ []) (hcid : cid ∈ allChunkIds fts vec) :
    (listMin (scores.map Prod.snd) ≠ listMax (scores.map Prod.snd) →
        listMax ((normalize_scores scores).map Prod.snd) = 1
          ∧ listMin ((normalize_scores scores).map Prod.snd) = 0)
    ∧ (listMin (scores.map Prod.snd) = listMax (scores.map Prod.snd) →
        ∀ p ∈ normalize_scores scores, p.2 = 1)
    ∧ lookupD (mergeScores fts vec) cid
        = (if cid ∈ fts.map Prod.fst then lookupD (normalize_scores fts) cid else 0)
          + (if cid ∈ vec.map Prod.fst then lookupD (normalize_scores vec) cid else 0) := by
  refine ⟨?_, ?_, ?_⟩
  · intro hd
    have hmap : scores.map Prod.snd ≠ [] := by
      intro hmape
      exact hne (by simpa using hmape)
    have hlt : listMin (scores.map Prod.snd) < listMax (scores.map Prod.snd) :=
      lt_of_le_of_ne (listMin_le_listMax hmap) hd
    have hsp : (0:ℚ) < listMax (scores.map Prod.snd) - listMin (scores.map Prod.snd) :=
      sub_pos.mpr hlt
    have hspne := ne_of_gt hsp
    have hmono : Monotone (fun v : ℚ =>
        (v - listMin (scores.map Prod.snd)) /
          (listMax (scores.map Prod.snd) - listMin (scores.map Prod.snd))) := by
      intro a b hab
      dsimp only
      rw [div_eq_mul_inv, div_eq_mul_inv]
      exact mul_le_mul_of_nonneg_right (sub_le_sub_right hab _) (inv_nonneg.mpr hsp.le)
    rw [normalize_scores_spread_ne scores hne hspne]
    have hmm : (scores.map (fun p => (p.1,
          (p.2 - listMin (scores.map Prod.snd)) /
            (listMax (scores.map Prod.snd) - listMin (scores.map Prod.snd))))).map Prod.snd
        = (scores.map Prod.snd).map (fun v =>
            (v - listMin (scores.map Prod.snd)) /
              (listMax (scores.map Prod.snd) - listMin (scores.map Prod.snd))) := by
      rw [List.map_map, List.map_map]
      rfl
    rw [hmm]
    constructor
    · rw [listMax_map_mono hmono hmap]
      exact div_self hspne
    · rw [listMin_map_mono hmono hmap]
      rw [sub_self, zero_div]
  · intro h0 p hp
    have h : listMax (scores.map Prod.snd) - listMin (scores.map Prod.snd) = 0 := by
      rw [← h0, sub_self]
    rw [normalize_scores_spread_eq scores hne h] at hp
    rcases List.mem_map.mp hp with ⟨q, _, rfl⟩
    rfl
  · have hmerge : lookupD (mergeScores fts vec) cid = preScore fts vec cid := by
      rw [mergeScores]
      exact lookupD_map_keyed hcid
    have zf : cid ∉ fts.map Prod.fst → lookupD (normalize_scores fts) cid = 0 :=
      fun h => lookupD_eq_zero (by rw [normalize_keys]; exact h)
    have zv : cid ∉ vec.map Prod.fst → lookupD (normalize_scores vec) cid = 0 :=
      fun h => lookupD_eq_zero (by rw [normalize_keys]; exact h)
    rw [hmerge, preScore]
    rcases Decidable.em (cid ∈ fts.map Prod.fst) with hf | hf <;>
      rcases Decidable.em (cid ∈ vec.map Prod.fst) with hv | hv
    · rw [if_pos hf, if_pos hv]
    · rw [if_pos hf, if_neg hv, zv hv]
    · rw [if_neg hf, if_pos hv, zf hf]
    · rw [if_neg hf, if_neg hv, zf hf, zv hv]

/-- Witness for C1 at a concrete two candidate lexical set and an empty
semantic set. -/
theorem search_score_normalization_witness :
    ([(1, (3:ℚ)), (2, 5)] : List (Nat × ℚ)) ≠ []
    ∧ 1 ∈ allChunkIds [(1, (3:ℚ)), (2, 5)] []
    ∧ ((listMin (([(1, (3:ℚ)), (2, 5)] : List (Nat × ℚ)).map Prod.snd)
          ≠ listMax (([(1, (3:ℚ)), (2, 5)] : List (Nat × ℚ)).map Prod.snd) →
        listMax ((normalize_scores [(1, (3:ℚ)), (2, 5)]).map Prod.snd) = 1
          ∧ listMin ((normalize_scores [(1, (3:ℚ)), (2, 5)]).map Prod.snd) = 0)
      ∧ (listMin (([(1, (3:ℚ)), (2, 5)] : List (Nat × ℚ)).map Prod.snd)
          = listMax (([(1, (3:ℚ)), (2, 5)] : List (Nat × ℚ)).map Prod.snd) →
        ∀ p ∈ normalize_scores [(1, (3:ℚ)), (2, 5)], p.2 = 1)
      ∧ lookupD (mergeScores [(1, (3:ℚ)), (2, 5)] []) 1
          = (if 1 ∈ ([(1, (3:ℚ)), (2, 5)] : List (Nat × ℚ)).map Prod.fst
              then lookupD (normalize_scores [(1, (3:ℚ)), (2, 5)]) 1 else 0)
            + (if 1 ∈ ([] : List (Nat × ℚ)).map Prod.fst
              then lookupD (normalize_scores []) 1 else 0)) :=
  ⟨by decide, by decide,
    search_score_normalization [(1, (3:ℚ)), (2, 5)] [(1, (3:ℚ)), (2, 5)] [] 1
      (by decide) (by decide)⟩

theorem length_distinctList_le {α : Type} [DecidableEq α] (l : List α) :
    (distinctList l).length ≤ l.length := by
  induction l with
  | nil => exact Nat.le_refl 0
  | cons y ys ih =>
    by_cases h : y ∈ ys
    · rw [distinctList, if_pos h]
      exact Nat.le_trans ih (Nat.le_succ _)
    · rw [distinctList, if_neg h]
      exact Nat.succ_le_succ ih

/-! ## Claim C2 -/

/-- C2: conflict detection of hybrid_search inspects only the top three
hits; a hit among the top three is a close hit exactly when its score is
at least 0.9 times the score of the first hit; possible_conflict is true
if and only if the close hits span at least two distinct
(doc_id, version_id) pairs, in which case conflict_sources lists exactly
those pairs with their document titles; and the result of
hybrid_search_model carries exactly the conflict data computed from its
hit list. -/
theorem search_conflict_detection
    (docs : List DocRow) (chunks : List ChunkRow) (hits : List SearchHit)
    (fts : List (Nat × ℚ)) (embedded : Option (List (Nat × ℚ))) (k : Nat) :
    conflictDetect docs hits = conflictDetect docs (hits.take 3)
    ∧ (∀ h top rest, hits = top :: rest →
        (h ∈ closeHits hits ↔ h ∈ hits.take 3 ∧ top.score * (9/10) ≤ h.score))
    ∧ ((conflictDetect docs hits).1 = true ↔ 2 ≤ (closePairs hits).length)
    ∧ ((conflictDetect docs hits).1 = true →
        (conflictDetect docs hits).2 = (closePairs hits).map (fun pr =>
          { doc_id := pr.1
            version_id := pr.2
            title := match findDoc docs pr.1 with
                     | some d => d.title
                     | none => "Unknown" }))
    ∧ ((hybrid_search_model docs chunks fts embedded k).possible_conflict,
        (hybrid_search_model docs chunks fts embedded k).conflict_sources)
      = conflictDetect docs (hybrid_search_model docs chunks fts embedded k).hits := by
  refine ⟨?_, ?_, ?_, ?_, ?_⟩
  · match hits with
    | [] => rfl
    | [h1] => rfl
    | h1 :: h2 :: t =>
      simp [conflictDetect, closePairs, closeHits, List.take_succ_cons, List.take_take]
  · intro h top rest he
    subst he
    simp [closeHits, List.mem_filter]
  · match hits with
    | [] => simp [conflictDetect, closePairs, closeHits, distinctList]
    | [h1] =>
      have h1len : (closeHits [h1]).length ≤ 1 := by
        have := List.length_filter_le
          (fun h => decide (h1.score * (9/10) ≤ h.score)) ([h1].take 3)
        simpa [closeHits] using this
      have hlen : (closePairs [h1]).length ≤ 1 := by
        calc (closePairs [h1]).length
            ≤ ((closeHits [h1]).map (fun h => (h.doc_id, h.version_id))).length :=
              length_distinctList_le _
          _ = (closeHits [h1]).length := List.length_map _ _
          _ ≤ 1 := h1len
      simp only [conflictDetect]
      constructor
      · intro hf
        exact absurd hf (by simp)
      · intro h2le
        omega
    | h1 :: h2 :: t =>
      by_cases hgt : 1 < (closePairs (h1 :: h2 :: t)).length
      · simp [conflictDetect, hgt]
        omega
      · simp [conflictDetect, hgt]
        omega
  · match hits with
    | [] => intro hf; exact absurd hf (by simp [conflictDetect])
    | [h1] => intro hf; exact absurd hf (by simp [conflictDetect])
    | h1 :: h2 :: t =>
      intro hf
      by_cases hgt : 1 < (closePairs (h1 :: h2 :: t)).length
      · simp [conflictDetect, hgt]
      · exact absurd hf (by simp [conflictDetect, hgt])
  · rcases embedded with _ | v
    · simp only [hybrid_search_model]
      by_cases he : (allChunkIds fts []).isEmpty
      · rw [if_pos he]
        rfl
      · rw [if_neg he]
    · simp only [hybrid_search_model]
      by_cases he : (allChunkIds fts v).isEmpty
      · rw [if_pos he]
        rfl
      · rw [if_neg he]

/-- Witness for C2 at two concrete hits of equal score from two documents:
the conflict flag is set and both sources are listed. -/
theorem search_conflict_detection_witness :
    (conflictDetect [⟨3, none, "A"⟩, ⟨4, none, "B"⟩]
      [⟨10, 3, 5, 0, 10, none⟩, ⟨11, 4, 6, 0, 10, none⟩]).1 = true
    ∧ (conflictDetect [⟨3, none, "A"⟩, ⟨4, none, "B"⟩]
        [⟨10, 3, 5, 0, 10, none⟩, ⟨11, 4, 6, 0, 10, none⟩]).2
      = (closePairs [⟨10, 3, 5, 0, 10, none⟩, ⟨11, 4, 6, 0, 10, none⟩]).map (fun pr =>
          { doc_id := pr.1
            version_id := pr.2
            title := match findDoc [⟨3, none, "A"⟩, ⟨4, none, "B"⟩] pr.1 with
                     | some d => d.title
                     | none => "Unknown" }) := by
  have h := (search_conflict_detection [⟨3, none, "A"⟩, ⟨4, none, "B"⟩] []
    [⟨10, 3, 5, 0, 10, none⟩, ⟨11, 4, 6, 0, 10, none⟩] [] none 0).2.2.2.1
  have ht : (conflictDetect [⟨3, none, "A"⟩, ⟨4, none, "B"⟩]
      [⟨10, 3, 5, 0, 10, none⟩, ⟨11, 4, 6, 0, 10, none⟩]).1 = true := by
    norm_num [conflictDetect, closePairs, closeHits, distinctList,
      List.filter_cons, List.take_succ_cons, List.mem_cons, List.mem_singleton,
      Prod.mk.injEq]
  exact ⟨ht, h ht⟩

/-! ## Claim C7 -/

/-- C7: when embedding the query raises, hybrid_search proceeds with an
empty semantic candidate set instead of surfacing the error: the result
is exactly the result computed on an empty semantic set, and every
returned hit comes from the lexical candidate set. -/
theorem search_embedder_fallback
    (docs : List DocRow) (chunks : List ChunkRow) (fts : List (Nat × ℚ)) (k : Nat) :
    hybrid_search_model docs chunks fts none k
      = hybrid_search_model docs chunks fts (some []) k
    ∧ ∀ h ∈ (hybrid_search_model docs chunks fts none k).hits,
        h.chunk_id ∈ fts.map Prod.fst := by
  constructor
  · rfl
  · intro h hh
    simp only [hybrid_search_model] at hh
    by_cases he : (allChunkIds fts []).isEmpty
    · rw [if_pos he] at hh
      simp at hh
    · rw [if_neg he] at hh
      simp only [buildHits] at hh
      rcases List.mem_filterMap.mp hh with ⟨p, hp, hgp⟩
      have hcid : h.chunk_id = p.1 := by
        cases hfc : findChunk chunks p.1 with
        | none => rw [hfc] at hgp; cases hgp
        | some chunk =>
          rw [hfc] at hgp
          cases hgp
          rfl
      have hp2 : p ∈ sortDesc ((mergeScores fts []).map
          (fun p => (p.1, applyBoost docs chunks p.1 p.2))) :=
        (List.take_sublist k _).subset hp
      have hp3 : p ∈ (mergeScores fts []).map
          (fun p => (p.1, applyBoost docs chunks p.1 p.2)) :=
        ((sortDesc_perm _).mem_iff).mp hp2
      rcases List.mem_map.mp hp3 with ⟨q, hq, rfl⟩
      rcases List.mem_map.mp hq with ⟨cid, hcidmem, rfl⟩
      rw [hcid]
      have hm := mem_distinctList.mp hcidmem
      simpa using hm

/-- Witness for C7: a single lexical candidate with an offline embedder
produces exactly that lexical hit. -/
theorem search_embedder_fallback_witness :
    ({ chunk_id := 5, doc_id := 7, version_id := 8, chunk_num := 0,
       score := roundTo4 1, doc_title := none } : SearchHit).chunk_id
      ∈ ([(5, (2:ℚ))] : List (Nat × ℚ)).map Prod.fst := by
  have hmem : ({ chunk_id := 5, doc_id := 7, version_id := 8, chunk_num := 0,
                 score := roundTo4 1, doc_title := none } : SearchHit)
      ∈ (hybrid_search_model []
          [{ chunk_id := 5, doc_id := 7, version_id := 8, chunk_num := 0,
             chunk_text := "t", language := "english", ocr_used := false,
             ocr_confidence := none }] [(5, (2:ℚ))] none 10).hits := by
    norm_num [hybrid_search_model, allChunkIds, distinctList, mergeScores,
      preScore, normalize_scores, listMax, listMin, lookupD, applyBoost,
      findChunk, findDoc, sortDesc, insertDesc, buildHits, List.find?]
  exact (search_embedder_fallback []
    [{ chunk_id := 5, doc_id := 7, version_id := 8, chunk_num := 0,
       chunk_text := "t", language := "english", ocr_used := false,
       ocr_confidence := none }] [(5, (2:ℚ))] 10).2 _ hmem

/-! ## Claim C3 -/

theorem sorted_ranking_general
    (l : List (Nat × ℚ)) (g : (Nat × ℚ) → Option SearchHit)
    (hg : ∀ p h, g p = some h → h.chunk_id = p.1)
    (k : Nat) (id1 id2 : Nat) (w1 w2 : ℚ)
    (hne : id1 ≠ id2)
    (hkey1 : ∀ e ∈ l, e.1 = id1 → e.2 = w1)
    (hkey2 : ∀ e ∈ l, e.1 = id2 → e.2 = w2)
    (hgt : w2 < w1) :
    ∀ i j : Nat, ∀ hi hj : SearchHit,
      (((sortDesc l).take k).filterMap g)[i]? = some hi →
      (((sortDesc l).take k).filterMap g)[j]? = some hj →
      hi.chunk_id = id1 → hj.chunk_id = id2 → i < j := by
  intro i j hi hj hgi hgj hc1 hc2
  have hPW : ((sortDesc l).take k).Pairwise (fun a b => b.2 ≤ a.2) :=
    List.Pairwise.sublist (List.take_sublist _ _) (sortDesc_sorted l)
  have hmem : ∀ e ∈ (sortDesc l).take k, e ∈ l := fun e he =>
    ((sortDesc_perm l).mem_iff).mp ((List.take_sublist _ _).subset he)
  have hU : ((sortDesc l).take k).Pairwise
      (fun a b => ¬(a.1 = id2 ∧ b.1 = id1)) := by
    refine List.Pairwise.imp_of_mem ?_ hPW
    intro a b ha hb hab hcon
    have ha2 : a.2 = w2 := hkey2 a (hmem a ha) hcon.1
    have hb2 : b.2 = w1 := hkey1 b (hmem b hb) hcon.2
    rw [ha2, hb2] at hab
    exact absurd hab (not_le.mpr hgt)
  have hT : (((sortDesc l).take k).filterMap g).Pairwise
      (fun h h2 => ¬(h.chunk_id = id2 ∧ h2.chunk_id = id1)) := by
    refine pairwise_filterMap_of g ?_ hU
    intro a b x y hab hga hgb hcon
    refine hab ⟨?_, ?_⟩
    · rw [← hg a x hga]; exact hcon.1
    · rw [← hg b y hgb]; exact hcon.2
  rcases Nat.lt_trichotomy i j with h | h | h
  · exact h
  · exfalso
    subst h
    rw [hgi] at hgj
    cases hgj
    exact hne (hc1.symm.trans hc2)
  · exfalso
    rcases List.getElem?_eq_some_iff.mp hgi with ⟨hil, hie⟩
    rcases List.getElem?_eq_some_iff.mp hgj with ⟨hjl, hje⟩
    have hpair := List.pairwise_iff_get.mp hT ⟨j, hjl⟩ ⟨i, hil⟩ h
    apply hpair
    constructor
    · simp only [List.get_eq_getElem]
      rw [hje]
      exact hc2
    · simp only [List.get_eq_getElem]
      rw [hie]
      exact hc1

/-- Amended C3: after normalization a chunk whose version is the latest
version of its document gets the 0.1 boost and a chunk with defined OCR
confidence gets 0.05 times confidence over 100; for two candidate chunks
of two versions of one document with equal pre-boost combined scores, and
OCR confidences (when defined) within the 0 to 100 range the OCR stage
produces, the chunk from the latest version is ranked strictly higher in
the returned hit list.  The claim as frozen quantifies over every value of
the ocr_confidence field; the counterexample shows a confidence above 100
reverses the order, so the range bound is the amendment. -/
theorem latest_version_boost_ranking
    (docs : List DocRow) (chunks : List ChunkRow) (fts vec : List (Nat × ℚ))
    (k : Nat) (c1 c2 : ChunkRow) (doc : DocRow)
    (h1 : findChunk chunks c1.chunk_id = some c1)
    (h2 : findChunk chunks c2.chunk_id = some c2)
    (hdoc : findDoc docs c1.doc_id = some doc)
    (hlatest : doc.latest_version_id = some c1.version_id)
    (hsamedoc : c2.doc_id = c1.doc_id)
    (hver : c1.version_id ≠ c2.version_id)
    (hid : c1.chunk_id ≠ c2.chunk_id)
    (hconf1 : ∀ q, c1.ocr_confidence = some q → 0 ≤ q ∧ q ≤ 100)
    (hconf2 : ∀ q, c2.ocr_confidence = some q → 0 ≤ q ∧ q ≤ 100)
    (hmem1 : c1.chunk_id ∈ allChunkIds fts vec)
    (hmem2 : c2.chunk_id ∈ allChunkIds fts vec)
    (heq : lookupD (mergeScores fts vec) c1.chunk_id
        = lookupD (mergeScores fts vec) c2.chunk_id) :
    ∀ i j : Nat, ∀ hi hj : SearchHit,
      (hybrid_search_model docs chunks fts (some vec) k).hits[i]? = some hi →
      (hybrid_search_model docs chunks fts (some vec) k).hits[j]? = some hj →
      hi.chunk_id = c1.chunk_id → hj.chunk_id = c2.chunk_id → i < j := by
  have hpre1 : lookupD (mergeScores fts vec) c1.chunk_id
      = preScore fts vec c1.chunk_id := by
    rw [mergeScores]
    exact lookupD_map_keyed hmem1
  have hpre2 : lookupD (mergeScores fts vec) c2.chunk_id
      = preScore fts vec c2.chunk_id := by
    rw [mergeScores]
    exact lookupD_map_keyed hmem2
  have hpeq : preScore fts vec c1.chunk_id = preScore fts vec c2.chunk_id := by
    rw [← hpre1, ← hpre2]
    exact heq
  have hw1 : preScore fts vec c1.chunk_id + 1/10
      ≤ applyBoost docs chunks c1.chunk_id (preScore fts vec c1.chunk_id) := by
    cases hcc : c1.ocr_confidence with
    | none =>
      simp only [applyBoost, h1, hdoc, hlatest, hcc, eq_self_iff_true, if_true]
      exact le_refl _
    | some q =>
      have hq := (hconf1 q hcc).1
      have hnn : (0:ℚ) ≤ (1/20) * (q / 100) := by positivity
      simp only [applyBoost, h1, hdoc, hlatest, hcc, eq_self_iff_true, if_true]
      exact le_add_of_nonneg_right hnn
  have hw2 : applyBoost docs chunks c2.chunk_id (preScore fts vec c2.chunk_id)
      ≤ preScore fts vec c2.chunk_id + 1/20 := by
    have hno : ¬(doc.latest_version_id = some c2.version_id) := by
      rw [hlatest]
      intro hcon
      exact hver (Option.some.inj hcon)
    cases hcc : c2.ocr_confidence with
    | none =>
      simp only [applyBoost, h2, hsamedoc, hdoc, if_neg hno, hcc]
      exact le_add_of_nonneg_right (by norm_num)
    | some q =>
      have hq := (hconf2 q hcc).2
      have h100 : q / 100 ≤ 1 := by
        rw [div_le_one (by norm_num : (0:ℚ) < 100)]
        exact hq
      have hb : (1:ℚ)/20 * (q / 100) ≤ 1/20 := by
        calc (1:ℚ)/20 * (q / 100) ≤ 1/20 * 1 :=
              mul_le_mul_of_nonneg_left h100 (by norm_num)
          _ = 1/20 := mul_one _
      simp only [applyBoost, h2, hsamedoc, hdoc, if_neg hno, hcc]
      exact add_le_add_left hb _
  have hwgt : applyBoost docs chunks c2.chunk_id (preScore fts vec c2.chunk_id)
      < applyBoost docs chunks c1.chunk_id (preScore fts vec c1.chunk_id) := by
    have hlt : preScore fts vec c2.chunk_id + 1/20
        < preScore fts vec c1.chunk_id + 1/10 := by
      rw [hpeq]
      have h2010 : (1:ℚ)/20 < 1/10 := by norm_num
      linarith
    exact lt_of_le_of_lt hw2 (lt_of_lt_of_le hlt hw1)
  have hni : (allChunkIds fts vec).isEmpty = false := by
    cases h : (allChunkIds fts vec).isEmpty
    · rfl
    · exact absurd (List.isEmpty_iff.mp h ▸ hmem1) (List.not_mem_nil _)
  have hB : (mergeScores fts vec).map
        (fun p => (p.1, applyBoost docs chunks p.1 p.2))
      = (allChunkIds fts vec).map
        (fun cid => (cid, applyBoost docs chunks cid (preScore fts vec cid))) := by
    rw [mergeScores, List.map_map]
    rfl
  have hits_eq : (hybrid_search_model docs chunks fts (some vec) k).hits
      = ((sortDesc ((allChunkIds fts vec).map
          (fun cid => (cid, applyBoost docs chunks cid (preScore fts vec cid))))).take k).filterMap
        (fun p =>
          match findChunk chunks p.1 with
          | none => none
          | some chunk => some
            { chunk_id := p.1
              doc_id := chunk.doc_id
              version_id := chunk.version_id
              chunk_num := chunk.chunk_num
              score := roundTo4 p.2
              doc_title := (findDoc docs chunk.doc_id).map (fun d => d.title) }) := by
    simp only [hybrid_search_model, hni, Bool.false_eq_true, if_false]
    rw [hB]
    rfl
  rw [hits_eq]
  refine sorted_ranking_general _ _ ?_ k c1.chunk_id c2.chunk_id
    (applyBoost docs chunks c1.chunk_id (preScore fts vec c1.chunk_id))
    (applyBoost docs chunks c2.chunk_id (preScore fts vec c2.chunk_id))
    hid ?_ ?_ hwgt
  · intro p h hgp
    cases hfc : findChunk chunks p.1 with
    | none => rw [hfc] at hgp; cases hgp
    | some chunk =>
      rw [hfc] at hgp
      cases hgp
      rfl
  · intro e he h1e
    rcases List.mem_map.mp he with ⟨cid, _, rfl⟩
    simp only at h1e
    rw [h1e]
  · intro e he h2e
    rcases List.mem_map.mp he with ⟨cid, _, rfl⟩
    simp only at h2e
    rw [h2e]

/-- Counterexample to C3 as frozen: two chunks of the same document with
equal pre-boost combined scores, the first from the latest version with no
OCR confidence, the second from another version with ocr_confidence 300;
the OCR boost 0.05 times 300 over 100 exceeds the latest version boost 0.1
and the latest version chunk is ranked strictly lower. -/
theorem latest_version_boost_counterexample :
    lookupD (mergeScores [(8, (4:ℚ)), (9, 4)] []) 8
      = lookupD (mergeScores [(8, (4:ℚ)), (9, 4)] []) 9
    ∧ ((hybrid_search_model [⟨3, some 5, "D"⟩]
        [⟨8, 3, 5, 0, "a", "english", true, none⟩,
         ⟨9, 3, 6, 1, "b", "english", true, some 300⟩]
        [(8, (4:ℚ)), (9, 4)] (some []) 10).hits.map (fun h => h.chunk_id)) = [9, 8] := by
  constructor
  · simp [mergeScores, preScore, allChunkIds, distinctList,
      normalize_scores, listMax, listMin, lookupD, List.find?]
  · simp [hybrid_search_model, allChunkIds, distinctList, mergeScores,
      preScore, normalize_scores, listMax, listMin, lookupD, applyBoost,
      findChunk, findDoc, sortDesc, insertDesc, buildHits, List.find?]
    norm_num
    simp

/-- Witness for the amended C3 at a concrete corpus: version 5 is the
latest version of document 3, both chunks have equal pre-boost scores, the
other chunk has OCR confidence 100, and the latest version chunk comes
first in the hit list. -/
theorem latest_version_boost_ranking_witness :
    (hybrid_search_model [⟨3, some 5, "D"⟩]
        [⟨8, 3, 5, 0, "a", "english", true, none⟩,
         ⟨9, 3, 6, 1, "b", "english", true, some 100⟩]
        [(8, (4:ℚ)), (9, 4)] (some []) 10).hits[0]?
      = some ⟨8, 3, 5, 0, roundTo4 (11/10), some "D"⟩
    ∧ (hybrid_search_model [⟨3, some 5, "D"⟩]
        [⟨8, 3, 5, 0, "a", "english", true, none⟩,
         ⟨9, 3, 6, 1, "b", "english", true, some 100⟩]
        [(8, (4:ℚ)), (9, 4)] (some []) 10).hits[1]?
      = some ⟨9, 3, 6, 1, roundTo4 (21/20), some "D"⟩
    ∧ (0:Nat) < 1 := by
  have hv0 : (hybrid_search_model [⟨3, some 5, "D"⟩]
      [⟨8, 3, 5, 0, "a", "english", true, none⟩,
       ⟨9, 3, 6, 1, "b", "english", true, some 100⟩]
      [(8, (4:ℚ)), (9, 4)] (some []) 10).hits[0]?
      = some ⟨8, 3, 5, 0, roundTo4 (11/10), some "D"⟩ := by
    simp [hybrid_search_model, allChunkIds, distinctList, mergeScores,
      preScore, normalize_scores, listMax, listMin, lookupD, applyBoost,
      findChunk, findDoc, sortDesc, insertDesc, buildHits, List.find?]
    norm_num
    try simp
    try norm_num [roundTo4]
  have hv1 : (hybrid_search_model [⟨3, some 5, "D"⟩]
      [⟨8, 3, 5, 0, "a", "english", true, none⟩,
       ⟨9, 3, 6, 1, "b", "english", true, some 100⟩]
      [(8, (4:ℚ)), (9, 4)] (some []) 10).hits[1]?
      = some ⟨9, 3, 6, 1, roundTo4 (21/20), some "D"⟩ := by
    simp [hybrid_search_model, allChunkIds, distinctList, mergeScores,
      preScore, normalize_scores, listMax, listMin, lookupD, applyBoost,
      findChunk, findDoc, sortDesc, insertDesc, buildHits, List.find?]
    norm_num
    try simp
    try norm_num [roundTo4]
  refine ⟨hv0, hv1, ?_⟩
  exact latest_version_boost_ranking [⟨3, some 5, "D"⟩]
    [⟨8, 3, 5, 0, "a", "english", true, none⟩,
     ⟨9, 3, 6, 1, "b", "english", true, some 100⟩]
    [(8, (4:ℚ)), (9, 4)] [] 10
    ⟨8, 3, 5, 0, "a", "english", true, none⟩
    ⟨9, 3, 6, 1, "b", "english", true, some 100⟩
    ⟨3, some 5, "D"⟩
    rfl rfl rfl rfl rfl (by decide) (by decide)
    (by intro q h; exact Option.noConfusion h)
    (by
      intro q h
      have hq : (100:ℚ) = q := Option.some.inj h
      subst hq
      constructor <;> norm_num)
    (by decide) (by decide)
    (by simp [mergeScores, preScore, allChunkIds, distinctList,
      normalize_scores, listMax, listMin, lookupD, List.find?])
    0 1 ⟨8, 3, 5, 0, roundTo4 (11/10), some "D"⟩
    ⟨9, 3, 6, 1, roundTo4 (21/20), some "D"⟩ hv0 hv1 rfl rfl

/-! ## Claim C5 -/

theorem intercalate_sp_cons_cons (x y : List Char) (zs : List (List Char)) :
    List.intercalate [' '] (x :: y :: zs)
      = x ++ ' ' :: List.intercalate [' '] (y :: zs) := by
  simp [List.intercalate, List.intersperse]

theorem joinedPageText_length :
    ∀ (pages : List (Nat × List Char)), pages ≠ [] →
      (joinedPageText pages).length = totalChars pages + (pages.length - 1)
  | [p], _ => by
    simp [joinedPageText, totalChars, List.intercalate]
  | p :: q :: rest, _ => by
    have ih := joinedPageText_length (q :: rest) (by simp)
    simp only [joinedPageText, List.map_cons, totalChars, List.sum_cons,
      List.length_cons] at ih ⊢
    rw [intercalate_sp_cons_cons, List.length_append, List.length_cons, ih]
    omega

theorem countP_replicate_char (p : Char → Bool) (n : Nat) (a : Char) :
    (List.replicate n a).countP p = if p a then n else 0 := by
  induction n with
  | zero => simp
  | succ n ih =>
    rw [List.replicate_succ, List.countP_cons, ih]
    by_cases h : p a
    · simp [h]
    · simp [h]

/-- Amended C5: for the PDF branch of run_extract, has_text_layer is
total_chars positive and needs_ocr is total_chars below 500 or five times
the alphabetic count below the length of the page texts joined with single
space separators.  The claim as frozen divides by the total number of
extracted characters; the code divides by the length of the joined text,
which exceeds it by one per page boundary, and the counterexample
separates the two at the 0.2 threshold. -/
theorem pdf_flag_rule (isAlphaC : Char → Bool) (pages : List (Nat × List Char)) :
    (pdfFlags isAlphaC pages).1 = decide (0 < totalChars pages)
    ∧ (pdfFlags isAlphaC pages).2
      = (decide (totalChars pages < 500)
          || decide (5 * countAlpha isAlphaC (joinedPageText pages)
              < (joinedPageText pages).length)) := by
  refine ⟨rfl, ?_⟩
  by_cases hlt : totalChars pages < 500
  · simp [pdfFlags, hlt]
  · have hpne : pages ≠ [] := by
      intro h
      subst h
      simp [totalChars] at hlt
    have hjlen : (joinedPageText pages).length
        = totalChars pages + (pages.length - 1) := joinedPageText_length pages hpne
    have hjne : joinedPageText pages ≠ [] := by
      intro h
      rw [h] at hjlen
      simp at hjlen
      omega
    have hlen0 : 0 < (joinedPageText pages).length := List.length_pos.mpr hjne
    have hcast : (0:ℚ) < ((joinedPageText pages).length : ℚ) := by
      exact_mod_cast hlen0
    simp only [pdfFlags, hlt, decide_False, Bool.false_or]
    rw [decide_eq_decide]
    rw [alphaFraction, if_neg hjne, div_lt_div_iff₀ hcast (by norm_num : (0:ℚ) < 5)]
    rw [one_mul]
    constructor
    · intro h
      have h2 : ((countAlpha isAlphaC (joinedPageText pages) * 5 : Nat) : ℚ)
          < ((joinedPageText pages).length : ℚ) := by
        push_cast
        linarith
      have h3 := Nat.cast_lt.mp h2
      omega
    · intro h
      have h2 : (countAlpha isAlphaC (joinedPageText pages) * 5 : Nat)
          < (joinedPageText pages).length := by omega
      have h3 : ((countAlpha isAlphaC (joinedPageText pages) * 5 : Nat) : ℚ)
          < ((joinedPageText pages).length : ℚ) := Nat.cast_lt.mpr h2
      push_cast at h3
      linarith

set_option maxRecDepth 100000 in
/-- Counterexample to C5 as frozen: two pages with 100 alphabetic and 400
other characters give total_chars 500 and an alpha ratio of exactly 0.2
over the extracted characters, so the claimed formula leaves needs_ocr
false, but the code computes the ratio over the space joined text of
length 501, which falls below 0.2, and sets needs_ocr true. -/
theorem pdf_needs_ocr_counterexample :
    totalChars [(1, List.replicate 100 'a' ++ List.replicate 150 '.'),
        (2, List.replicate 250 '.')] = 500
    ∧ specNeedsOcr Char.isAlpha
        [(1, List.replicate 100 'a' ++ List.replicate 150 '.'),
         (2, List.replicate 250 '.')] = false
    ∧ (pdfFlags Char.isAlpha
        [(1, List.replicate 100 'a' ++ List.replicate 150 '.'),
         (2, List.replicate 250 '.')]).2 = true := by
  have htot : totalChars [(1, List.replicate 100 'a' ++ List.replicate 150 '.'),
      (2, List.replicate 250 '.')] = 500 := by
    simp [totalChars]
  have hconcat : concatPageText [(1, List.replicate 100 'a' ++ List.replicate 150 '.'),
      (2, List.replicate 250 '.')]
      = List.replicate 100 'a' ++ List.replicate 150 '.' ++ List.replicate 250 '.' := by
    simp [concatPageText]
  have hjoin : joinedPageText [(1, List.replicate 100 'a' ++ List.replicate 150 '.'),
      (2, List.replicate 250 '.')]
      = (List.replicate 100 'a' ++ List.replicate 150 '.')
        ++ ' ' :: List.replicate 250 '.' := by
    simp [joinedPageText, intercalate_sp_cons_cons, List.intercalate]
  have hca : countAlpha Char.isAlpha
      ((List.replicate 100 'a' ++ List.replicate 150 '.') ++ List.replicate 250 '.') = 100 := by
    simp [countAlpha, List.countP_append, countP_replicate_char]
  have hcj : countAlpha Char.isAlpha
      ((List.replicate 100 'a' ++ List.replicate 150 '.')
        ++ ' ' :: List.replicate 250 '.') = 100 := by
    simp [countAlpha, List.countP_append, List.countP_cons, countP_replicate_char]
  refine ⟨htot, ?_, ?_⟩
  · rw [specNeedsOcr, htot]
    have hne : concatPageText [(1, List.replicate 100 'a' ++ List.replicate 150 '.'),
        (2, List.replicate 250 '.')] ≠ [] := by
      rw [hconcat]
      simp
    rw [alphaFraction, if_neg hne, hconcat, hca]
    have hlen : ((List.replicate 100 'a' ++ List.replicate 150 '.')
        ++ List.replicate 250 '.').length = 500 := by simp
    rw [hlen]
    norm_num
  · rw [pdfFlags]
    simp only [htot]
    have hne : joinedPageText [(1, List.replicate 100 'a' ++ List.replicate 150 '.'),
        (2, List.replicate 250 '.')] ≠ [] := by
      rw [hjoin]
      simp
    rw [alphaFraction, if_neg hne, hjoin, hcj]
    have hlen : ((List.replicate 100 'a' ++ List.replicate 150 '.')
        ++ ' ' :: List.replicate 250 '.').length = 501 := by simp
    rw [hlen]
    norm_num

/-! ## Claim C10 -/

theorem rfindNlNl_bounds {text : List Char} {start stop p : Nat}
    (h : rfindNlNl text start stop = some p) : start ≤ p ∧ p + 2 ≤ stop := by
  rw [rfindNlNl] at h
  have hm := List.max?_mem (fun a b => max_choice a b) h
  rcases List.mem_filter.mp hm with ⟨_, hcond⟩
  simp only [Bool.and_eq_true, decide_eq_true_eq] at hcond
  exact ⟨hcond.1.1.1, hcond.1.1.2⟩

theorem rfindChar_bounds {text : List Char} {ch : Char} {start stop p : Nat}
    (h : rfindChar text ch start stop = some p) : start ≤ p ∧ p + 1 ≤ stop := by
  rw [rfindChar] at h
  have hm := List.max?_mem (fun a b => max_choice a b) h
  rcases List.mem_filter.mp hm with ⟨_, hcond⟩
  simp only [Bool.and_eq_true, decide_eq_true_eq] at hcond
  exact ⟨hcond.1.1, hcond.1.2⟩

theorem pageNlFallback_bounds (text : List Char) (target start stop : Nat)
    (h : start < stop) :
    start < pageNlFallback text target start stop
      ∧ pageNlFallback text target start stop ≤ stop := by
  rw [pageNlFallback]
  cases hnf : rfindChar text '\n' start stop with
  | none => exact ⟨h, le_refl _⟩
  | some nl =>
    dsimp only
    rcases rfindChar_bounds hnf with ⟨hnl1, hnl2⟩
    by_cases hc : start + target / 2 < nl
    · rw [if_pos hc]
      omega
    · rw [if_neg hc]
      exact ⟨h, le_refl _⟩

theorem pageEnd_bounds (text : List Char) (target start : Nat)
    (hstart : start < text.length) (htarget : 0 < target) :
    start < pageEnd text target start ∧ pageEnd text target start ≤ text.length := by
  have hs1 : start < min (start + target) text.length := by omega
  have hs2 : min (start + target) text.length ≤ text.length := by omega
  simp only [pageEnd]
  by_cases hlt : min (start + target) text.length < text.length
  · rw [if_pos hlt]
    cases hfp : rfindNlNl text start (min (start + target) text.length) with
    | none =>
      dsimp only
      have hb := pageNlFallback_bounds text target start _ hs1
      omega
    | some p =>
      dsimp only
      rcases rfindNlNl_bounds hfp with ⟨hp1, hp2⟩
      by_cases hc : start + target / 2 < p
      · rw [if_pos hc]
        omega
      · rw [if_neg hc]
        have hb := pageNlFallback_bounds text target start _ hs1
        omega
  · rw [if_neg hlt]
    omega

theorem paginateAux_ok (text : List Char) (target : Nat) (ht : 0 < target) :
    ∀ fuel start pn, text.length ≤ start + fuel →
      ∃ l, paginateAux text target fuel start pn = some l
        ∧ (l.map Prod.snd).flatten = text.drop start
        ∧ l.map Prod.fst = List.range' pn l.length := by
  intro fuel
  induction fuel with
  | zero =>
    intro start pn hle
    refine ⟨[], ?_, ?_, rfl⟩
    · simp only [paginateAux]
      rw [if_neg (by omega)]
    · simp [List.drop_eq_nil_of_le (by omega : text.length ≤ start)]
  | succ fuel ih =>
    intro start pn hle
    by_cases hs : start < text.length
    · rcases pageEnd_bounds text target start hs ht with ⟨hb1, hb2⟩
      rcases ih (pageEnd text target start) (pn + 1) (by omega) with ⟨rest, hr1, hr2, hr3⟩
      refine ⟨(pn, (text.drop start).take (pageEnd text target start - start)) :: rest,
        ?_, ?_, ?_⟩
      · simp only [paginateAux]
        rw [if_pos hs, hr1]
      · simp only [List.map_cons, List.flatten_cons, hr2]
        have hdd : text.drop (pageEnd text target start)
            = (text.drop start).drop (pageEnd text target start - start) := by
          rw [List.drop_drop]
          congr 1
          omega
        rw [hdd, List.take_append_drop]
      · simp only [List.map_cons, hr3, List.length_cons]
        rw [List.range'_succ]
    · refine ⟨[], ?_, ?_, rfl⟩
      · simp only [paginateAux]
        rw [if_neg hs]
      · simp [List.drop_eq_nil_of_le (by omega : text.length ≤ start)]

/-- C10: for every text and positive target, the synthetic pages of
paginate_text partition the text exactly: the page texts concatenate back
to the text, and the page numbers are consecutive starting at 1. -/
theorem paginate_text_partition (text : List Char) (target : Nat) (ht : 0 < target) :
    ∃ l, paginate_text text target = some l
      ∧ (l.map Prod.snd).flatten = text
      ∧ l.map Prod.fst = List.range' 1 l.length := by
  by_cases h0 : text = [] ∨ target = 0
  · refine ⟨[(1, text)], ?_, by simp, by simp⟩
    rw [paginate_text, if_pos h0]
  · by_cases h1 : text.length ≤ target
    · refine ⟨[(1, text)], ?_, by simp, by simp⟩
      rw [paginate_text, if_neg h0, if_pos h1]
    · rcases paginateAux_ok text target ht (text.length + 1) 0 1 (by omega)
        with ⟨l, hl1, hl2, hl3⟩
      refine ⟨l, ?_, ?_, hl3⟩
      · rw [paginate_text, if_neg h0, if_neg h1]
        exact hl1
      · simpa using hl2

/-- Witness for C10 at the three character text with page target 2. -/
theorem paginate_text_partition_witness :
    (0:Nat) < 2
    ∧ ∃ l, paginate_text ['a', 'b', 'c'] 2 = some l
      ∧ (l.map Prod.snd).flatten = ['a', 'b', 'c']
      ∧ l.map Prod.fst = List.range' 1 l.length :=
  ⟨by decide, paginate_text_partition ['a', 'b', 'c'] 2 (by decide)⟩

/-! ## Claim C9 -/

theorem le_wsRunEnd (region : List Char) (i : Nat) : i ≤ wsRunEnd region i :=
  Nat.le_add_right i _

theorem wsRunEnd_le (region : List Char) (i : Nat) (h : i ≤ region.length) :
    wsRunEnd region i ≤ region.length := by
  rw [wsRunEnd]
  have h1 : ((region.drop i).takeWhile isPySpace).length ≤ (region.drop i).length :=
    (List.takeWhile_sublist _).length_le
  rw [List.length_drop] at h1
  omega

theorem wsRunEnd_gt (region : List Char) (i : Nat) (h1 : i < region.length)
    (h2 : isPySpace (region.get ⟨i, h1⟩) = true) : i + 1 ≤ wsRunEnd region i := by
  rw [wsRunEnd]
  have hdrop : region.drop i = region.get ⟨i, h1⟩ :: region.drop (i + 1) := by
    rw [List.get_eq_getElem]
    exact List.drop_eq_getElem_cons h1
  rw [hdrop, List.takeWhile_cons_of_pos h2]
  simp

theorem lastSentBoundary_bounds {region : List Char} {m : Nat × Nat}
    (h : lastSentBoundary region = some m) :
    1 ≤ m.1 ∧ m.1 < region.length ∧ m.1 + 1 ≤ m.2 ∧ m.2 ≤ region.length := by
  rw [lastSentBoundary] at h
  cases hmx : ((List.range region.length).filter (fun i =>
      decide (1 ≤ i)
        && (region.get? (i - 1)).any (fun c => c == '.' || c == '!' || c == '?')
        && (region.get? i).any isPySpace)).max? with
  | none =>
    rw [hmx] at h
    cases h
  | some i =>
    rw [hmx] at h
    cases h
    have hm := List.max?_mem (fun a b => max_choice a b) hmx
    rcases List.mem_filter.mp hm with ⟨hrange, hcond⟩
    have hilen : i < region.length := List.mem_range.mp hrange
    simp only [Bool.and_eq_true, decide_eq_true_eq] at hcond
    have hget : region.get? i = some (region.get ⟨i, hilen⟩) :=
      List.get?_eq_get hilen
    have hsp : isPySpace (region.get ⟨i, hilen⟩) = true := by
      have h2 := hcond.2
      rw [hget] at h2
      simpa using h2
    exact ⟨hcond.1.1, hilen, wsRunEnd_gt region i hilen hsp,
      wsRunEnd_le region i (Nat.le_of_lt hilen)⟩

theorem wordBreak_bounds (text : List Char) (target start stop : Nat)
    (h : start < stop) :
    start < wordBreak text target start stop ∧ wordBreak text target start stop ≤ stop := by
  rw [wordBreak]
  cases hnf : rfindChar text ' ' start stop with
  | none => exact ⟨h, le_refl _⟩
  | some sp =>
    dsimp only
    rcases rfindChar_bounds hnf with ⟨hs1, hs2⟩
    by_cases hc : start + target / 2 < sp
    · rw [if_pos hc]
      omega
    · rw [if_neg hc]
      exact ⟨h, le_refl _⟩

theorem sentenceOrWord_bounds (text : List Char) (target start stop : Nat)
    (h : start < stop) (hstop : stop ≤ text.length) :
    start < sentenceOrWord text target start stop
      ∧ sentenceOrWord text target start stop ≤ stop := by
  have hreg : ((text.drop start).take (stop - start)).length = stop - start := by
    rw [List.length_take, List.length_drop]
    omega
  simp only [sentenceOrWord]
  cases hsb : lastSentBoundary ((text.drop start).take (stop - start)) with
  | none => exact wordBreak_bounds text target start stop h
  | some m =>
    dsimp only
    rcases lastSentBoundary_bounds hsb with ⟨hm1, hm2, hm3, hm4⟩
    rw [hreg] at hm2 hm4
    by_cases hc : target / 2 < m.1
    · rw [if_pos hc]
      omega
    · rw [if_neg hc]
      exact wordBreak_bounds text target start stop h

theorem chunkEnd_bounds (text : List Char) (target start : Nat)
    (hstart : start < text.length) (htarget : 0 < target) :
    start < chunkEnd text target start ∧ chunkEnd text target start ≤ text.length := by
  have hs1 : start < min (start + target) text.length := by omega
  have hs2 : min (start + target) text.length ≤ text.length := by omega
  simp only [chunkEnd]
  by_cases hlt : min (start + target) text.length < text.length
  · rw [if_pos hlt]
    cases hfp : rfindNlNl text start (min (start + target) text.length) with
    | none =>
      dsimp only
      have hb := sentenceOrWord_bounds text target start _ hs1 hs2
      omega
    | some p =>
      dsimp only
      rcases rfindNlNl_bounds hfp with ⟨hp1, hp2⟩
      by_cases hc : start + target / 2 < p
      · rw [if_pos hc]
        omega
      · rw [if_neg hc]
        have hb := sentenceOrWord_bounds text target start _ hs1 hs2
        omega
  · rw [if_neg hlt]
    omega

theorem nextStart_bounds (start stop overlap : Nat) (h : start < stop) :
    start < nextStart start stop overlap ∧ nextStart start stop overlap ≤ stop := by
  rw [nextStart]
  by_cases hc : stop - overlap ≤ start
  · rw [if_pos hc]
    omega
  · rw [if_neg hc]
    omega

/-- Well-formedness of a list of chunk ranges over a text of length n:
every range nonempty and within bounds, starts strictly increasing, the
next start never past the previous end, and the last range ending at n. -/
def chunksOk (n : Nat) : List (Nat × Nat) → Prop
  | [] => True
  | [r] => r.1 < r.2 ∧ r.2 = n
  | r :: s :: rest => r.1 < r.2 ∧ r.2 ≤ n ∧ r.1 < s.1 ∧ s.1 ≤ r.2 ∧ chunksOk n (s :: rest)

theorem splitTextAux_ok (text : List Char) (target overlap : Nat) (ht : 0 < target) :
    ∀ fuel start, text.length ≤ start + fuel →
      ∃ l, splitTextAux text target overlap fuel start = some l
        ∧ (text.length ≤ start → l = [])
        ∧ (start < text.length → ∃ e rest, l = (start, e) :: rest)
        ∧ chunksOk text.length l := by
  intro fuel
  induction fuel with
  | zero =>
    intro start hle
    have hns : ¬(start < text.length) := by omega
    refine ⟨[], ?_, fun _ => rfl, fun hcon => absurd hcon hns, trivial⟩
    simp only [splitTextAux]
    rw [if_neg hns]
  | succ fuel ih =>
    intro start hle
    by_cases hs : start < text.length
    · rcases chunkEnd_bounds text target start hs ht with ⟨he1, he2⟩
      rcases nextStart_bounds start (chunkEnd text target start) overlap he1
        with ⟨hn1, hn2⟩
      rcases ih (nextStart start (chunkEnd text target start) overlap) (by omega)
        with ⟨rest, hr1, hrnil, hrcons, hrok⟩
      refine ⟨(start, chunkEnd text target start) :: rest, ?_, ?_, ?_, ?_⟩
      · simp only [splitTextAux]
        rw [if_pos hs, hr1]
      · intro hcon
        exact absurd hcon (by omega)
      · intro _
        exact ⟨chunkEnd text target start, rest, rfl⟩
      · cases hrest : rest with
        | nil =>
          have hsle : text.length ≤ nextStart start (chunkEnd text target start) overlap := by
            by_contra hlt
            push_neg at hlt
            rcases hrcons hlt with ⟨e2, r2, hcon⟩
            rw [hrest] at hcon
            exact absurd hcon (by simp)
          have heq : chunkEnd text target start = text.length := by omega
          exact ⟨he1, heq⟩
        | cons s2 r2 =>
          have hslt : nextStart start (chunkEnd text target start) overlap
              < text.length := by
            by_contra hge
            push_neg at hge
            rw [hrnil hge] at hrest
            exact absurd hrest (by simp)
          rcases hrcons hslt with ⟨e2, r2b, hcon⟩
          rw [hrest] at hcon
          injection hcon with hch hct
          rw [hrest] at hrok
          refine ⟨he1, he2, ?_, ?_, hrok⟩
          · rw [hch]
            exact hn1
          · rw [hch]
            exact hn2
    · refine ⟨[], ?_, fun _ => rfl, fun hcon => absurd hcon hs, trivial⟩
      simp only [splitTextAux]
      rw [if_neg hs]

/-- C9: split_text at the default target and overlap terminates on every
input (the fuel of one step per character suffices) and returns ranges
that cover the whole string: the empty string gives the empty list, a
nonempty string gives a first range starting at 0, and the ranges are
nonempty, within bounds, with strictly increasing starts, no gaps, and a
last range ending at the length of the string. -/
theorem split_text_terminates_covers (text : List Char) :
    ∃ l, splitTextAux text 1000 150 (text.length + 1) 0 = some l
      ∧ split_text text = l
      ∧ (text = [] → l = [])
      ∧ (text ≠ [] → ∃ e rest, l = (0, e) :: rest)
      ∧ chunksOk text.length l := by
  rcases splitTextAux_ok text 1000 150 (by decide) (text.length + 1) 0 (by omega)
    with ⟨l, h1, hnil, hcons, hok⟩
  refine ⟨l, h1, ?_, ?_, ?_, hok⟩
  · rw [split_text, h1]
    rfl
  · intro he
    exact hnil (by simp [he])
  · intro hne
    exact hcons (List.length_pos.mpr hne)

/-- Witness for C9 at a concrete two character string, whose single chunk
range is computed explicitly. -/
theorem split_text_terminates_covers_witness :
    splitTextAux ['h', 'i'] 1000 150 (['h', 'i'].length + 1) 0 = some [(0, 2)]
    ∧ chunksOk (['h', 'i'].length) [(0, 2)]
    ∧ ∃ e rest, ([(0, 2)] : List (Nat × Nat)) = (0, e) :: rest := by
  obtain ⟨l, h1, _, _, h4, h5⟩ := split_text_terminates_covers ['h', 'i']
  have hd : splitTextAux ['h', 'i'] 1000 150 (['h', 'i'].length + 1) 0
      = some [(0, 2)] := by decide
  have hl : l = [(0, 2)] := Option.some.inj (h1.symm.trans hd)
  subst hl
  exact ⟨h1, h5, h4 (by decide)⟩

/-! ## Claim C8 -/

theorem mem_enumFrom_le {α : Type} :
    ∀ (l : List α) (n : Nat) (p : Nat × α), p ∈ List.enumFrom n l → n ≤ p.1 := by
  intro l
  induction l with
  | nil => intro n p hp; cases hp
  | cons x xs ih =>
    intro n p hp
    rcases List.mem_cons.mp hp with h | h
    · subst h
      exact le_refl n
    · exact Nat.le_of_succ_le (ih (n + 1) p h)

theorem pairwise_fst_lt_enumFrom {α : Type} :
    ∀ (l : List α) (n : Nat), (List.enumFrom n l).Pairwise (fun a b => a.1 < b.1) := by
  intro l
  induction l with
  | nil => intro n; exact List.Pairwise.nil
  | cons x xs ih =>
    intro n
    refine List.pairwise_cons.mpr ⟨?_, ih (n + 1)⟩
    intro p hp
    exact Nat.lt_of_succ_le (mem_enumFrom_le xs (n + 1) p hp)

/-- C8: run_chunk assigns chunk_num by enumerate position over the split
ranges, 0 based, with no duplicate chunk_num for a version, and the stage
is idempotent on the chunk rows of a version: the second run deletes the
rows of the first and recomputes the same ones. -/
theorem run_chunk_idempotent_numbering
    (detect : List Char → String) (pages : List (Nat × List Char))
    (prev : List ChunkTuple) :
    run_chunk_state detect (run_chunk_state detect prev pages) pages
      = run_chunk_state detect prev pages
    ∧ ((chunkTuples detect pages).map (fun t => t.chunk_num)).Nodup
    ∧ ∀ t ∈ chunkTuples detect pages,
        (split_text (fullTextOf pages))[t.chunk_num]? = some (t.char_start, t.char_end) := by
  refine ⟨?_, ?_, ?_⟩
  · by_cases hp : pages = []
    · simp [run_chunk_state, hp]
    · simp [run_chunk_state, hp]
  · have hpw : (chunkTuples detect pages).Pairwise
        (fun a b => a.chunk_num < b.chunk_num) := by
      rw [chunkTuples]
      refine pairwise_filterMap_of (U := fun a b => a.1 < b.1) _ ?_ ?_
      · intro a b x y hU hga hgb
        dsimp only at hga hgb
        split at hga
        · cases hga
        · split at hgb
          · cases hgb
          · cases hga
            cases hgb
            exact hU
      · exact pairwise_fst_lt_enumFrom _ 0
    rw [List.Nodup, List.pairwise_map]
    exact hpw.imp (fun h => Nat.ne_of_lt h)
  · intro t ht
    rw [chunkTuples] at ht
    rcases List.mem_filterMap.mp ht with ⟨ir, hir, hgir⟩
    dsimp only at hgir
    split at hgir
    · cases hgir
    · cases hgir
      rcases ir with ⟨i, r⟩
      rcases List.mem_enum hir with ⟨hlen, hval⟩
      rw [List.getElem?_eq_getElem hlen, ← hval]

/-- Witness for C8 at a one page version whose text is within the chunk
target, yielding a single chunk numbered 0. -/
theorem run_chunk_idempotent_numbering_witness :
    (⟨0, 8, 0, "english"⟩ : ChunkTuple)
      ∈ chunkTuples (fun _ => "english") [(1, ['h', 'i', ' ', 't', 'h', 'e', 'r', 'e'])]
    ∧ (split_text (fullTextOf [(1, ['h', 'i', ' ', 't', 'h', 'e', 'r', 'e'])]))[(0:Nat)]?
      = some (0, 8) := by
  have hm : (⟨0, 8, 0, "english"⟩ : ChunkTuple)
      ∈ chunkTuples (fun _ => "english")
        [(1, ['h', 'i', ' ', 't', 'h', 'e', 'r', 'e'])] := by decide
  exact ⟨hm, (run_chunk_idempotent_numbering (fun _ => "english")
    [(1, ['h', 'i', ' ', 't', 'h', 'e', 'r', 'e'])] []).2.2 _ hm⟩

/-! ## Claim C4 -/

theorem advanceWalk_enq (needsOcr : Bool) (completed : JobStage → Bool) :
    ∀ (order : List JobStage) (db : PipeDB),
      (advanceWalk needsOcr completed order db).2
        = (order.filter (fun s =>
            !(completed s) && !(s == JobStage.ocr && !needsOcr))).head? := by
  intro order
  induction order with
  | nil => intro db; rfl
  | cons stage rest ih =>
    intro db
    cases hc : completed stage with
    | true =>
      simp only [advanceWalk, hc, if_true, List.filter_cons, Bool.not_true,
        Bool.false_and, if_false]
      exact ih db
    | false =>
      by_cases ho : stage = JobStage.ocr ∧ needsOcr = false
      · obtain ⟨rfl, hnf⟩ := ho
        subst hnf
        simp only [advanceWalk, hc, Bool.false_eq_true, if_false, and_self,
          if_true, List.filter_cons, Bool.not_false, Bool.true_and,
          beq_self_eq_true, Bool.not_true, eq_self_iff_true]
        exact ih _
      · have hb : (stage == JobStage.ocr && !needsOcr) = false := by
          by_cases hs : stage = JobStage.ocr
          · subst hs
            cases hn : needsOcr
            · exact absurd ⟨rfl, hn⟩ ho
            · simp
          · simp [hs]
        simp only [advanceWalk, hc, Bool.false_eq_true, if_false, if_neg ho,
          List.filter_cons, Bool.not_false, Bool.true_and, hb, if_true,
          List.head?_cons]

theorem advanceWalk_all_done (needsOcr : Bool) (completed : JobStage → Bool) :
    ∀ (order : List JobStage) (db : PipeDB),
      (∀ s ∈ order, completed s) →
        advanceWalk needsOcr completed order db = (db, none) := by
  intro order
  induction order with
  | nil => intro db _; rfl
  | cons stage rest ih =>
    intro db hall
    have hc : completed stage = true := hall stage (List.mem_cons_self _ _)
    simp only [advanceWalk, hc, if_true]
    exact ih db (fun s hs => hall s (List.mem_cons.mpr (Or.inr hs)))

theorem advanceWalk_no_ocr (needsOcr : Bool) (completed : JobStage → Bool) :
    ∀ (order : List JobStage) (db : PipeDB), JobStage.ocr ∉ order →
      (advanceWalk needsOcr completed order db).1.jobs JobStage.ocr
          = db.jobs JobStage.ocr
        ∧ ((advanceWalk needsOcr completed order db).2 = none →
            (advanceWalk needsOcr completed order db).1 = db) := by
  intro order
  induction order with
  | nil => intro db _; exact ⟨rfl, fun _ => rfl⟩
  | cons stage rest ih =>
    intro db hno
    have hstage : stage ≠ JobStage.ocr := fun h => hno (h ▸ List.mem_cons_self _ _)
    have hrest : JobStage.ocr ∉ rest := fun h => hno (List.mem_cons.mpr (Or.inr h))
    cases hc : completed stage with
    | true =>
      simp only [advanceWalk, hc, if_true]
      exact ih db hrest
    | false =>
      have ho : ¬(stage = JobStage.ocr ∧ needsOcr = false) := fun h => hstage h.1
      simp only [advanceWalk, hc, Bool.false_eq_true, if_false, if_neg ho]
      constructor
      · simp only [enqueue_stage, updateJob]
        rw [if_neg (fun h : JobStage.ocr = stage => hstage h.symm)]
      · intro hcon
        cases hcon

theorem advanceWalk_enq_mem (needsOcr : Bool) (completed : JobStage → Bool) :
    ∀ (order : List JobStage) (db : PipeDB) (s : JobStage),
      (advanceWalk needsOcr completed order db).2 = some s → s ∈ order := by
  intro order
  induction order with
  | nil => intro db s h; cases h
  | cons stage rest ih =>
    intro db s h
    cases hc : completed stage with
    | true =>
      rw [advanceWalk, if_pos hc] at h
      exact List.mem_cons.mpr (Or.inr (ih db s h))
    | false =>
      by_cases ho : stage = JobStage.ocr ∧ needsOcr = false
      · rw [advanceWalk, if_neg (by rw [hc]; simp), if_pos ho] at h
        exact List.mem_cons.mpr (Or.inr (ih _ s h))
      · rw [advanceWalk, if_neg (by rw [hc]; simp), if_neg ho] at h
        cases h
        exact List.mem_cons_self _ _

/-- C4: advance_pipeline walks the ordered stage list skipping done
stages; the enqueued stage is exactly the first stage that is neither done
nor the skipped ocr stage (none when every stage is done, in which case
the state is untouched); and when extract is done, ocr is not done and
needs_ocr is false, the walk upserts the ocr job row as done with the
skipped metric, never enqueues ocr, and leaves the version in ocr_done
when nothing further is enqueued. -/
theorem advance_pipeline_spec (needsOcr : Bool) (db : PipeDB) :
    ((advance_pipeline needsOcr db).2
        = (STAGE_ORDER.filter (fun s =>
            !(completedSet db s) && !(s == JobStage.ocr && !needsOcr))).head?)
    ∧ ((∀ s ∈ STAGE_ORDER, completedSet db s) →
        advance_pipeline needsOcr db = (db, none))
    ∧ (needsOcr = false → completedSet db JobStage.extract = true →
        completedSet db JobStage.ocr = false →
          (advance_pipeline needsOcr db).1.jobs JobStage.ocr
              = some ⟨JobStatus.done, true⟩
            ∧ (advance_pipeline needsOcr db).2 ≠ some JobStage.ocr
            ∧ ((advance_pipeline needsOcr db).2 = none →
                (advance_pipeline needsOcr db).1.vstatus = VersionStatus.ocr_done)) := by
  refine ⟨advanceWalk_enq needsOcr (completedSet db) STAGE_ORDER db,
    advanceWalk_all_done needsOcr (completedSet db) STAGE_ORDER db, ?_⟩
  intro hn hex hocr
  subst hn
  have hinfo : (match db.jobs JobStage.ocr with
      | some j => { j with status := JobStatus.done, skipped_metric := true }
      | none => { status := JobStatus.done, skipped_metric := true } : JobInfo)
      = ⟨JobStatus.done, true⟩ := by
    cases db.jobs JobStage.ocr <;> rfl
  have hred : advance_pipeline false db
      = advanceWalk false (completedSet db)
          [JobStage.chunk, JobStage.embed, JobStage.finalize]
          { jobs := updateJob db.jobs JobStage.ocr ⟨JobStatus.done, true⟩
            vstatus := VersionStatus.ocr_done } := by
    rw [advance_pipeline, STAGE_ORDER]
    rw [advanceWalk, if_pos hex]
    rw [advanceWalk, if_neg (by rw [hocr]; simp), if_pos ⟨rfl, rfl⟩, hinfo]
  have hno : JobStage.ocr ∉ [JobStage.chunk, JobStage.embed, JobStage.finalize] := by
    decide
  have hpres := advanceWalk_no_ocr false (completedSet db)
    [JobStage.chunk, JobStage.embed, JobStage.finalize]
    { jobs := updateJob db.jobs JobStage.ocr ⟨JobStatus.done, true⟩
      vstatus := VersionStatus.ocr_done } hno
  refine ⟨?_, ?_, ?_⟩
  · rw [hred, hpres.1]
    simp [updateJob]
  · intro hcon
    rw [hred] at hcon
    have := advanceWalk_enq_mem false (completedSet db) _ _ _ hcon
    exact absurd this (by decide)
  · intro hnone
    rw [hred] at hnone ⊢
    rw [hpres.2 hnone]

/-- Witness for C4 at a job table with extract done and no other rows,
with needs_ocr false: the walk skips ocr with a synthesized done row and
enqueues chunk. -/
theorem advance_pipeline_spec_witness :
    ((advance_pipeline false
        { jobs := fun s => if s = JobStage.extract
            then some ⟨JobStatus.done, false⟩ else none
          vstatus := VersionStatus.extracted }).1.jobs JobStage.ocr
      = some ⟨JobStatus.done, true⟩)
    ∧ (advance_pipeline false
        { jobs := fun s => if s = JobStage.extract
            then some ⟨JobStatus.done, false⟩ else none
          vstatus := VersionStatus.extracted }).2 ≠ some JobStage.ocr := by
  have h := (advance_pipeline_spec false
    { jobs := fun s => if s = JobStage.extract
        then some ⟨JobStatus.done, false⟩ else none
      vstatus := VersionStatus.extracted }).2.2 rfl (by decide) (by decide)
  exact ⟨h.1, h.2.1⟩

/-! ## Claim C6 -/

/-- Counterexample to C6 as frozen: the claim quantifies over every
uploaded file whose hash matches an existing version and asserts that no
error is raised, but a matching file over the size limit is rejected with
the 413 error (modelled as none) during streaming, before the duplicate
check ever runs: here the store holds a version with hash 77 and the
upload of hash 77 and size 200 exceeds the limit 100. -/
theorem upload_duplicate_counterexample :
    (⟨[⟨11, 12, 77⟩], [], []⟩ : StoreState).versions.find?
        (fun w => w.original_sha256 == 77) = some ⟨11, 12, 77⟩
    ∧ process_upload 100 ⟨[⟨11, 12, 77⟩], [], []⟩ 77 200 "f.pdf" "tmp/k" = none := by
  constructor
  · decide
  · rw [process_upload, if_pos (by omega)]

/-- Amended C6: for an upload within the size limit whose SHA-256 matches
the original hash of an existing document version, the route does not
raise: it returns a duplicate result referencing the existing doc and
version, records a duplicate upload row pointing at them, writes no new
blob, and leaves the version table unchanged.  The frozen claim covered
every matching-hash file, but a file over the size limit raises the 413
error during streaming before the hash is compared, so the size bound is
the amendment. -/
theorem upload_duplicate_dedup
    (maxBytes : Nat) (st : StoreState) (sha size : Nat) (filename tempKey : String)
    (v : VersionRec)
    (hfind : st.versions.find? (fun w => w.original_sha256 == sha) = some v)
    (hsize : size ≤ maxBytes) :
    ∃ st2 r, process_upload maxBytes st sha size filename tempKey = some (st2, r)
      ∧ r.status = "duplicate"
      ∧ r.duplicate_doc_id = some v.doc_id
      ∧ r.duplicate_version_id = some v.version_id
      ∧ st2.blobs = st.blobs
      ∧ st2.versions = st.versions
      ∧ st2.uploads = st.uploads ++
          [{ original_filename := filename
             size_bytes := size
             sha256 := sha
             object_key := ""
             doc_id := some v.doc_id
             version_id := some v.version_id
             status := "duplicate" }] := by
  have heq : process_upload maxBytes st sha size filename tempKey
      = some ({ st with uploads := st.uploads ++
          [{ original_filename := filename
             size_bytes := size
             sha256 := sha
             object_key := ""
             doc_id := some v.doc_id
             version_id := some v.version_id
             status := "duplicate" }] },
        { filename := filename
          size_bytes := size
          status := "duplicate"
          duplicate_doc_id := some v.doc_id
          duplicate_version_id := some v.version_id }) := by
    rw [process_upload, if_neg (by omega), hfind]
  exact ⟨_, _, heq, rfl, rfl, rfl, rfl, rfl, rfl⟩

/-- Witness for C6 at a store holding one version with hash 77 and an
upload of the same hash within the size limit. -/
theorem upload_duplicate_dedup_witness :
    ∃ st2 r, process_upload 100 ⟨[⟨11, 12, 77⟩], [], []⟩ 77 5 "f.pdf" "tmp/k"
        = some (st2, r)
      ∧ r.status = "duplicate"
      ∧ r.duplicate_doc_id = some (⟨11, 12, 77⟩ : VersionRec).doc_id
      ∧ r.duplicate_version_id = some (⟨11, 12, 77⟩ : VersionRec).version_id
      ∧ st2.blobs = (⟨[⟨11, 12, 77⟩], [], []⟩ : StoreState).blobs
      ∧ st2.versions = (⟨[⟨11, 12, 77⟩], [], []⟩ : StoreState).versions
      ∧ st2.uploads = (⟨[⟨11, 12, 77⟩], [], []⟩ : StoreState).uploads ++
          [{ original_filename := "f.pdf"
             size_bytes := 5
             sha256 := 77
             object_key := ""
             doc_id := some (⟨11, 12, 77⟩ : VersionRec).doc_id
             version_id := some (⟨11, 12, 77⟩ : VersionRec).version_id
             status := "duplicate" }] :=
  upload_duplicate_dedup 100 ⟨[⟨11, 12, 77⟩], [], []⟩ 77 5 "f.pdf" "tmp/k"
    ⟨11, 12, 77⟩ (by decide) (by decide)

end McpGateway
